import Mathlib

/-!
# A verification model of `dowel.csv_output.CsvOutput`

This file gives a shallow embedding of `src/dowel/csv_output.py` and proves
the specification claims about it.  The external collaborators are modelled
through their interfaces:

* `TabularInput.as_primitive_dict` is modelled by `Record`: the
  insertion-ordered association list of field name to the string the csv
  module renders for the primitive value.
* The `csv.DictWriter` object is modelled by its mutable ordered
  `fieldnames` list; its construction options (`extrasaction` set to ignore
  and the default empty-string `restval`) are baked into `writerow`.
* The underlying log file (from `FileOutput`) is modelled by `FileStream`:
  character contents plus a position, with text writes overwriting in place
  at the position (Python text files with one byte per character).
* Python `set` objects (`_fieldnames`, `_warned_once`) are modelled as
  duplicate-free lists; the iteration order of a set is hash-dependent and
  unspecified in Python, so the executable model resolves
  `list(keys - fieldnames)` to an order-preserving filter.  That
  resolution is a modelling choice, not a program guarantee: the
  relational `legalNewBatch` describes every enumeration the program may
  legally produce, and properties of the batch's internal order are
  stated only in that relational form.
* `warnings.warn` is modelled by appending the message to an observational
  trace `emitted`.
* Raised exceptions (`ValueError`, the `AttributeError` from dereferencing
  the absent writer in `close`) are modelled by explicit error results that
  carry the (unchanged) object state.

The csv module quotes cells containing delimiters; the model writes cells
verbatim, so theorems about read-back restrict to cells free of `,`, CR and
LF, where the two agree.
-/

namespace Dowel

/-- One logging tick as delivered by `TabularInput.as_primitive_dict`:
an insertion-ordered association list of field name to the string rendered
for its primitive value. -/
structure Record where
  entries : List (String × String)
deriving DecidableEq

/-- `to_csv.keys()` in insertion order. -/
def Record.keys (r : Record) : List String := r.entries.map Prod.fst

/-- Python `dict.get(k, d)`. -/
def Record.getD (r : Record) (k d : String) : String :=
  match r.entries.find? (fun p => p.1 == k) with
  | some p => p.2
  | none => d

/-- The `csv.DictWriter` object, modelled by its mutable ordered
`fieldnames` list. -/
structure DictWriter where
  fieldnames : List String
deriving DecidableEq

/-- A seekable text stream: character contents plus current position.
Writing overwrites in place at the position, extending the file at the
end. -/
structure FileStream where
  content : List Char
  pos : Nat
  closed : Bool
deriving DecidableEq

/-- `file.write(s)` at the current position. -/
def FileStream.write (f : FileStream) (s : List Char) : FileStream :=
  { f with
    content := f.content.take f.pos ++ s ++ f.content.drop (f.pos + s.length)
    pos := f.pos + s.length }

/-- `file.seek(0)`. -/
def FileStream.seekStart (f : FileStream) : FileStream := { f with pos := 0 }

/-- `file.seek(0, 2)`: seek to end of stream. -/
def FileStream.seekEnd (f : FileStream) : FileStream :=
  { f with pos := f.content.length }

/-- The state of a `CsvOutput` writer instance. -/
structure CsvOutput where
  inconsistency_handling : Option String
  header_length : Nat
  log_file : FileStream
  writer : Option DictWriter
  fieldnames : Option (List String)
  warned_once : List String
  disable_warnings : Bool
  emitted : List String
deriving DecidableEq

/-- `CsvOutput.__init__(file_name, implementation, header_length)`, with the
underlying file freshly opened and empty. -/
def CsvOutput.init (implementation : Option String) (header_length : Nat) :
    CsvOutput :=
  { inconsistency_handling := implementation
    header_length := header_length
    log_file := { content := [], pos := 0, closed := false }
    writer := none
    fieldnames := none
    warned_once := []
    disable_warnings := false
    emitted := [] }

/-- Comma-join a list of cells, as `','.join` does. -/
def joinComma : List (List Char) → List Char
  | [] => []
  | [c] => c
  | c :: cs => c ++ ',' :: joinComma cs

/-- Comma-join a list of field names. -/
def strJoinComma (fns : List String) : List Char :=
  joinComma (fns.map String.data)

/-- Equality of the underlying sets, as Python compares a `dict_keys` view
with a `set`. -/
def sameSet (a b : List String) : Bool :=
  a.all (fun x => b.contains x) && b.all (fun x => a.contains x)

/-- Python truthiness of the `implementation` option. -/
def pyTruthy : Option String → Bool
  | none => false
  | some s => !(s == "")

/-- The text of the inconsistency warning.  The Python code interpolates the
two key sets; their rendering is modelled as an insertion-order listing
(the rendering is immaterial to the deduplication logic). -/
def warnMsg (fieldnames keys : List String) : String :=
  "Inconsistent TabularInput keys detected. CsvOutput keys: "
    ++ String.intercalate ", " fieldnames
    ++ ". TabularInput keys: " ++ String.intercalate ", " keys
    ++ ". Did you change key sets after your first logger.log of a TabularInput?"

/-- `CsvOutput._warn(msg)`: emit via `warnings.warn` unless suppressed or
already warned, then add the message to the warned-once set
unconditionally. -/
def CsvOutput.warn (o : CsvOutput) (msg : String) : CsvOutput :=
  { o with
    emitted :=
      if o.disable_warnings = false && !(o.warned_once.contains msg) then
        o.emitted ++ [msg]
      else o.emitted
    warned_once :=
      if o.warned_once.contains msg then o.warned_once
      else o.warned_once ++ [msg] }

/-- The csv module's default line terminator. -/
def crlf : List Char := ['\r', '\n']

/-- Python string formatting with a left-justify spec to a given width,
followed by slicing to that width. -/
def padTrunc (s : List Char) (w : Nat) : List Char :=
  (s ++ List.replicate (w - s.length) ' ').take w

/-- The `if not self._writer` block of `CsvOutput.record`: commit the schema
and write the header (padded in fixed-header-length mode, via
`DictWriter.writeheader` otherwise). -/
def CsvOutput.commit (o : CsvOutput) (keys : List String) : CsvOutput :=
  let o := { o with fieldnames := some keys, writer := some ⟨keys⟩ }
  if o.inconsistency_handling = some "fixed_header_length" then
    { o with
      log_file :=
        o.log_file.write (padTrunc (strJoinComma keys) o.header_length ++ crlf) }
  else
    { o with log_file := o.log_file.write (strJoinComma keys ++ crlf) }

/-- The `if to_csv.keys() != self._fieldnames` block of `CsvOutput.record`:
warn, and if an inconsistency-handling implementation is active extend the
schema with the new keys and (in fixed-header-length mode) patch the header
in place.  The code materializes the new keys as
`list(to_csv.keys() - self._fieldnames)` — a Python set difference whose
iteration order is hash-dependent and unspecified; this executable model
resolves that choice to the keys' first-appearance order (the
order-preserving filter below).  Properties that depend on the batch's
internal order are therefore not program guarantees; `legalNewBatch`
captures the full set of outcomes the program may produce. -/
def CsvOutput.handle_inconsistency (o : CsvOutput) (keys : List String) :
    CsvOutput :=
  let fset := o.fieldnames.getD []
  if sameSet keys fset then o
  else
    let o := o.warn (warnMsg fset keys)
    if pyTruthy o.inconsistency_handling then
      let fieldnames_new := keys.filter (fun k => !fset.contains k)
      if fieldnames_new.isEmpty then o
      else
        let wfns := (o.writer.getD ⟨[]⟩).fieldnames ++ fieldnames_new
        let o := { o with
                   fieldnames := some (fset ++ fieldnames_new)
                   writer := some ⟨wfns⟩ }
        if o.inconsistency_handling = some "fixed_header_length" then
          let header := strJoinComma wfns
          let header_length := min header.length o.header_length
          let f := (o.log_file.seekStart).write (header.take header_length)
          { o with log_file := f.seekEnd }
        else o
    else o

/-- One row as `DictWriter.writerow` emits it: one cell per fieldname, with
the empty-string `restval` for fieldnames absent from the record and extra
record keys ignored. -/
def DictWriter.rowOf (w : DictWriter) (r : Record) : List Char :=
  joinComma (w.fieldnames.map (fun f => (r.getD f "").data))

/-- `self._writer.writerow(to_csv)`. -/
def CsvOutput.writerow (o : CsvOutput) (r : Record) : CsvOutput :=
  { o with log_file := o.log_file.write ((o.writer.getD ⟨[]⟩).rowOf r ++ crlf) }

/-- The body of `CsvOutput.record` on a `TabularInput` argument.  Returns
the new state and the list of keys marked consumed on the input. -/
def CsvOutput.record_tabular (o : CsvOutput) (r : Record) :
    CsvOutput × List String :=
  let keys := r.keys
  if keys.isEmpty && o.writer.isNone then (o, [])
  else
    let o := if o.writer.isNone then o.commit keys else o
    let o := o.handle_inconsistency keys
    let o := o.writerow r
    (o, keys)

/-- The argument of `CsvOutput.record`: either a `TabularInput` (modelled by
its primitive dictionary) or a value of any other type. -/
inductive LogInput where
  | tabular (r : Record)
  | other
deriving DecidableEq

/-- Outcome of a call to `CsvOutput.record`: normal return with the keys
marked consumed, or a raised exception carrying the unchanged state. -/
inductive RecordResult where
  | ok (o : CsvOutput) (marked : List String)
  | error (o : CsvOutput) (msg : String)
deriving DecidableEq

/-- `CsvOutput.record(data)`. -/
def CsvOutput.record (o : CsvOutput) (d : LogInput) : RecordResult :=
  match d with
  | .tabular r =>
    let p := o.record_tabular r
    .ok p.1 p.2
  | .other => .error o "Unacceptable type."

/-- Fold a list of tabular writes over the state. -/
def CsvOutput.run (o : CsvOutput) (rs : List Record) : CsvOutput :=
  rs.foldl (fun a r => (a.record_tabular r).1) o

/-- Split a character list on a separator, like `str.split`: always returns
at least one (possibly empty) chunk. -/
def splitOnElem (c : Char) : List Char → List (List Char)
  | [] => [[]]
  | x :: xs =>
    match splitOnElem c xs with
    | [] => [[]]
    | h :: t => if x = c then [] :: h :: t else (x :: h) :: t

/-- Strip one trailing carriage return, as universal-newline reading does
when a file written with CRLF terminators is read back. -/
def stripCR (l : List Char) : List Char :=
  if l.getLast? = some '\r' then l.dropLast else l

/-- The lines of a text file as Python iteration yields them (without their
terminators): split on LF, drop the empty chunk after a trailing LF, strip
a trailing CR from each line. -/
def parseLines (content : List Char) : List (List Char) :=
  let parts := splitOnElem '\n' content
  (if parts.getLast? = some [] then parts.dropLast else parts).map stripCR

/-- `[row.get(key, ...) for key in fieldnames]` joined with commas, where
`row` is the `csv.DictReader` dictionary for a line with the given cells:
cell `i` for fieldname `i`, the empty-string `restval` beyond the cells,
extra cells dropped.  (The writer's fieldnames are pairwise distinct, so
positional lookup coincides with the dictionary.) -/
def reEmitRow (fns : List String) (cells : List (List Char)) : List Char :=
  joinComma ((List.range fns.length).map (fun i => cells.getD i []))

/-- The rewrite loop of `CsvOutput.close` in copy mode: `csv.DictReader`
yields one row per non-blank line (blank lines are skipped); the row read
from the first line is replaced by the full header, every other row is
re-emitted over the final fieldnames. -/
def rewriteLines (fns : List String) (lines : List (List Char)) :
    List (List Char) :=
  match lines with
  | [] => []
  | l :: rest =>
    let dataRows := rest.filterMap (fun l2 =>
      if l2.isEmpty then none
      else some (reEmitRow fns (splitOnElem ',' l2)))
    if l.isEmpty then dataRows else strJoinComma fns :: dataRows

/-- Join lines with the LF terminator `print` appends. -/
def unlinesLF (ls : List (List Char)) : List Char :=
  ls.foldr (fun l acc => l ++ '\n' :: acc) []

/-- Join lines with the CRLF terminator the csv writer appends. -/
def unlinesCRLF (ls : List (List Char)) : List Char :=
  ls.foldr (fun l acc => l ++ '\r' :: '\n' :: acc) []

/-- `CsvOutput.close()`: close the underlying file, then in copy mode
rewrite it in place over the final fieldnames.  Dereferencing the absent
writer when no record was ever written raises, modelled by an error
message alongside the state. -/
def CsvOutput.close (o : CsvOutput) : CsvOutput × Option String :=
  let o := { o with log_file := { o.log_file with closed := true } }
  if o.inconsistency_handling = some "copy" then
    match o.writer with
    | none => (o, some "AttributeError")
    | some w =>
      let lines := parseLines o.log_file.content
      let newContent := unlinesLF (rewriteLines w.fieldnames lines)
      ({ o with log_file := { o.log_file with content := newContent } }, none)
  else (o, none)

/-- The evolution of the schema on one incoming key set, as performed by
`handle_inconsistency`.  Mirrors that definition's resolution of the
unspecified Python set iteration order to the keys' first-appearance
order: the filter below is one legal enumeration of the new-key set among
those described by `legalNewBatch`, not an order the program guarantees. -/
def extendK (impl : Option String) (fns keys : List String) : List String :=
  if sameSet keys fns then fns
  else if pyTruthy impl then
    fns ++ keys.filter (fun k => !fns.contains k)
  else fns

/-- The schema after a sequence of records.  Like `extendK`, this resolves
the unspecified iteration order of the Python set difference to record
order; `legalNewBatch` describes the full set of outcomes the program may
produce. -/
def schemaRun (impl : Option String) (fns : List String) (rs : List Record) :
    List String :=
  rs.foldl (fun a r => extendK impl a r.keys) fns

/-- The set of outcomes Python may produce for
`list(to_csv.keys() - self._fieldnames)`: `batch` enumerates, without
duplicates, exactly the record keys not already in the schema.  The
iteration order of a Python set is hash-dependent and unspecified, so
every such enumeration is a legal outcome of the program; the executable
`extendK` picks the first-appearance enumeration among them. -/
def legalNewBatch (fns keys batch : List String) : Prop :=
  batch.Nodup ∧ (∀ b ∈ batch, b ∈ keys ∧ b ∉ fns) ∧
    (∀ k ∈ keys, k ∉ fns → k ∈ batch)

/-- A cell is clean when it contains none of comma, LF, CR, so the csv
module writes it verbatim and reading splits it back exactly. -/
def cleanCell (s : String) : Bool :=
  s.data.all (fun c => !(c == ',') && !(c == '\n') && !(c == '\r'))

/-- All keys and values of a record are clean. -/
def Record.clean (r : Record) : Bool :=
  r.entries.all (fun p => cleanCell p.1 && cleanCell p.2)

/-- The data lines appended by a sequence of records written after
commitment, together with the schema each row was written under. -/
def rowLines (impl : Option String) (fns : List String) :
    List Record → List (List Char)
  | [] => []
  | r :: rs =>
    DictWriter.rowOf ⟨extendK impl fns r.keys⟩ r
      :: rowLines impl (extendK impl fns r.keys) rs

/-- A fixed-header-length writer with budget 10 that has committed the
one-field schema `a`: a concrete state used as a witness input. -/
def sampleFixed10 : CsvOutput :=
  ((CsvOutput.init (some "fixed_header_length") 10).record_tabular
    ⟨[("a","1")]⟩).1

/-- A concrete two-field record used as a witness input. -/
def sampleAB : Record := ⟨[("a","2"),("b","3")]⟩

theorem sameSet_self (l : List String) : sameSet l l = true := by
  simp [sameSet, List.all_eq_true]

theorem write_at_end (f : FileStream) (s : List Char)
    (h : f.pos = f.content.length) :
    f.write s
      = ⟨f.content ++ s, f.content.length + s.length, f.closed⟩ := by
  simp only [FileStream.write, h]
  congr 1
  · rw [List.take_length, List.drop_eq_nil_of_le (by omega)]
    simp

theorem commit_proj (o : CsvOutput) (keys : List String) :
    (o.commit keys).writer = some ⟨keys⟩ ∧
    (o.commit keys).fieldnames = some keys ∧
    (o.commit keys).inconsistency_handling = o.inconsistency_handling ∧
    (o.commit keys).header_length = o.header_length ∧
    (o.commit keys).warned_once = o.warned_once ∧
    (o.commit keys).emitted = o.emitted ∧
    (o.commit keys).disable_warnings = o.disable_warnings ∧
    (o.commit keys).log_file.closed = o.log_file.closed := by
  simp only [CsvOutput.commit]
  split <;> simp [FileStream.write]

theorem warn_proj (o : CsvOutput) (msg : String) :
    (o.warn msg).log_file = o.log_file ∧ (o.warn msg).writer = o.writer ∧
    (o.warn msg).fieldnames = o.fieldnames ∧
    (o.warn msg).inconsistency_handling = o.inconsistency_handling ∧
    (o.warn msg).header_length = o.header_length ∧
    (o.warn msg).disable_warnings = o.disable_warnings := by
  simp [CsvOutput.warn]

theorem writerow_proj (o : CsvOutput) (r : Record) :
    (o.writerow r).writer = o.writer ∧
    (o.writerow r).fieldnames = o.fieldnames ∧
    (o.writerow r).inconsistency_handling = o.inconsistency_handling ∧
    (o.writerow r).header_length = o.header_length ∧
    (o.writerow r).warned_once = o.warned_once ∧
    (o.writerow r).emitted = o.emitted ∧
    (o.writerow r).disable_warnings = o.disable_warnings ∧
    (o.writerow r).log_file.closed = o.log_file.closed := by
  simp [CsvOutput.writerow, FileStream.write]

theorem handle_sameSet (o : CsvOutput) (fns keys : List String)
    (h : o.fieldnames = some fns) (hs : sameSet keys fns = true) :
    o.handle_inconsistency keys = o := by
  simp [CsvOutput.handle_inconsistency, h, hs]

theorem record_tabular_first (o : CsvOutput) (r : Record)
    (h1 : o.writer = none) (hk : ¬r.keys.isEmpty) :
    o.record_tabular r = ((o.commit r.keys).writerow r, r.keys) := by
  simp only [CsvOutput.record_tabular]
  rw [if_neg (by simp [h1, hk]), if_pos (by simp [h1]),
    handle_sameSet _ r.keys r.keys (commit_proj o r.keys).2.1 (sameSet_self _)]

theorem extendK_of_not_truthy (impl : Option String) (fns keys : List String)
    (h : pyTruthy impl = false) : extendK impl fns keys = fns := by
  unfold extendK
  split
  · rfl
  · simp [h]

theorem handle_nonfixed (o : CsvOutput) (fns keys : List String)
    (h1 : o.writer = some ⟨fns⟩) (h2 : o.fieldnames = some fns)
    (h3 : o.inconsistency_handling ≠ some "fixed_header_length") :
    (o.handle_inconsistency keys).log_file = o.log_file ∧
    (o.handle_inconsistency keys).writer
      = some ⟨extendK o.inconsistency_handling fns keys⟩ ∧
    (o.handle_inconsistency keys).fieldnames
      = some (extendK o.inconsistency_handling fns keys) ∧
    (o.handle_inconsistency keys).inconsistency_handling
      = o.inconsistency_handling ∧
    (o.handle_inconsistency keys).header_length = o.header_length ∧
    (o.handle_inconsistency keys).disable_warnings = o.disable_warnings := by
  by_cases hs : sameSet keys fns = true
  · simp [CsvOutput.handle_inconsistency, h1, h2, hs, extendK]
  · by_cases ht : pyTruthy o.inconsistency_handling = true
    · by_cases he : ∀ a ∈ keys, a ∈ fns
      · have hf0 : List.filter (fun k => !decide (k ∈ fns)) keys = [] := by
          rw [List.filter_eq_nil_iff]
          intro a ha
          simp [he a ha]
        simp [CsvOutput.handle_inconsistency, h1, h2, hs, ht, extendK,
          CsvOutput.warn, hf0]
      · have hf1 : ¬(List.filter (fun k => !decide (k ∈ fns)) keys = []) := by
          rw [List.filter_eq_nil_iff]
          intro hc
          exact he (fun a ha => by simpa using hc a ha)
        simp [CsvOutput.handle_inconsistency, h1, h2, hs, ht, extendK,
          CsvOutput.warn, h3, hf1]
    · simp [CsvOutput.handle_inconsistency, h1, h2, hs, ht, extendK,
        CsvOutput.warn]

theorem record_tabular_committed_eq (o : CsvOutput) (r : Record)
    (h1 : o.writer.isNone = false) :
    o.record_tabular r
      = ((o.handle_inconsistency r.keys).writerow r, r.keys) := by
  simp [CsvOutput.record_tabular, h1]

theorem record_tabular_committed (o : CsvOutput) (fns : List String)
    (r : Record)
    (h1 : o.writer = some ⟨fns⟩) (h2 : o.fieldnames = some fns)
    (h3 : o.inconsistency_handling ≠ some "fixed_header_length")
    (h4 : o.log_file.pos = o.log_file.content.length) :
    (o.record_tabular r).2 = r.keys ∧
    (o.record_tabular r).1.writer
      = some ⟨extendK o.inconsistency_handling fns r.keys⟩ ∧
    (o.record_tabular r).1.fieldnames
      = some (extendK o.inconsistency_handling fns r.keys) ∧
    (o.record_tabular r).1.inconsistency_handling
      = o.inconsistency_handling ∧
    (o.record_tabular r).1.header_length = o.header_length ∧
    (o.record_tabular r).1.disable_warnings = o.disable_warnings ∧
    (o.record_tabular r).1.log_file.content
      = o.log_file.content
        ++ (DictWriter.rowOf ⟨extendK o.inconsistency_handling fns r.keys⟩ r
            ++ crlf) ∧
    (o.record_tabular r).1.log_file.pos
      = (o.record_tabular r).1.log_file.content.length ∧
    (o.record_tabular r).1.log_file.closed = o.log_file.closed := by
  obtain ⟨ha, hb, hc, hd, he', hf⟩ := handle_nonfixed o fns r.keys h1 h2 h3
  have hw : o.writer.isNone = false := by simp [h1]
  rw [record_tabular_committed_eq o r hw]
  have hwp := writerow_proj (o.handle_inconsistency r.keys) r
  have hcontent :
      ((o.handle_inconsistency r.keys).writerow r).log_file.content
        = o.log_file.content
          ++ (DictWriter.rowOf ⟨extendK o.inconsistency_handling fns r.keys⟩ r
              ++ crlf) := by
    simp only [CsvOutput.writerow, ha, hb, Option.getD_some]
    rw [write_at_end _ _ h4]
  refine ⟨rfl, ?_, ?_, ?_, ?_, ?_, hcontent, ?_, ?_⟩
  · rw [hwp.1, hb]
  · rw [hwp.2.1, hc]
  · rw [hwp.2.2.1, hd]
  · rw [hwp.2.2.2.1, he']
  · rw [hwp.2.2.2.2.2.2.1, hf]
  · rw [hcontent]
    simp only [CsvOutput.writerow, ha, hb, Option.getD_some]
    rw [write_at_end _ _ h4]
    simp
  · have := hwp.2.2.2.2.2.2.2
    rw [this]
    have : (o.handle_inconsistency r.keys).log_file.closed
        = o.log_file.closed := by rw [ha]
    exact this

theorem run_nil (o : CsvOutput) : o.run [] = o := rfl

theorem run_cons (o : CsvOutput) (r : Record) (rs : List Record) :
    o.run (r :: rs) = ((o.record_tabular r).1).run rs := rfl

theorem run_append (o : CsvOutput) (rs1 rs2 : List Record) :
    o.run (rs1 ++ rs2) = (o.run rs1).run rs2 := by
  simp [CsvOutput.run, List.foldl_append]

theorem record_empty_noop (o : CsvOutput) (r : Record)
    (h1 : o.writer = none) (h2 : r.entries = []) :
    o.record_tabular r = (o, []) := by
  simp [CsvOutput.record_tabular, Record.keys, h2, h1]

theorem run_uncommitted_empties (o : CsvOutput) (es : List Record)
    (h1 : o.writer = none) (he : ∀ e ∈ es, e.entries = []) :
    o.run es = o := by
  induction es with
  | nil => rfl
  | cons e es ih =>
    rw [run_cons, record_empty_noop o e h1 (he e (by simp))]
    exact ih (fun e' h' => he e' (by simp [h']))

/-- Claim C7: writes of zero-field records before any schema is committed
are no-ops (no header, no row, no warning, schema uncommitted), and the
first non-empty record afterwards commits the schema, so the writer state
is exactly that of committing and writing that record: the header reflects
exactly its field names in first-seen order. -/
theorem c7_empty_then_commit (impl : Option String) (L : Nat)
    (es : List Record) (r : Record)
    (he : ∀ e ∈ es, e.entries = []) (hr : r.keys ≠ []) :
    (CsvOutput.init impl L).run es = CsvOutput.init impl L ∧
    (CsvOutput.init impl L).run (es ++ [r])
      = ((CsvOutput.init impl L).commit r.keys).writerow r ∧
    ((CsvOutput.init impl L).run (es ++ [r])).writer = some ⟨r.keys⟩ ∧
    ((CsvOutput.init impl L).run (es ++ [r])).emitted = [] := by
  have h0 : (CsvOutput.init impl L).writer = none := rfl
  have hrun := run_uncommitted_empties _ es h0 he
  have hk : ¬r.keys.isEmpty := by simp [hr]
  have hfirst := record_tabular_first (CsvOutput.init impl L) r h0 hk
  have heq : (CsvOutput.init impl L).run (es ++ [r])
      = ((CsvOutput.init impl L).commit r.keys).writerow r := by
    rw [run_append, hrun, run_cons, hfirst, run_nil]
  refine ⟨hrun, heq, ?_, ?_⟩
  · rw [heq, (writerow_proj _ _).1, (commit_proj _ _).1]
  · rw [heq, (writerow_proj _ _).2.2.2.2.2.1, (commit_proj _ _).2.2.2.2.2.1]
    rfl

/-- Witness for C7 at a concrete input: two empty records then one
two-field record, in default mode. -/
theorem c7_empty_then_commit_witness :
    (∀ e ∈ [(⟨[]⟩ : Record), ⟨[]⟩], e.entries = ([] : List (String × String)))
    ∧ (⟨[("foo","1"),("bar","2")]⟩ : Record).keys ≠ []
    ∧ ((CsvOutput.init none 140).run [⟨[]⟩, ⟨[]⟩] = CsvOutput.init none 140 ∧
      (CsvOutput.init none 140).run
          ([⟨[]⟩, ⟨[]⟩] ++ [⟨[("foo","1"),("bar","2")]⟩])
        = ((CsvOutput.init none 140).commit
            (⟨[("foo","1"),("bar","2")]⟩ : Record).keys).writerow
            ⟨[("foo","1"),("bar","2")]⟩ ∧
      ((CsvOutput.init none 140).run
          ([⟨[]⟩, ⟨[]⟩] ++ [⟨[("foo","1"),("bar","2")]⟩])).writer
        = some ⟨(⟨[("foo","1"),("bar","2")]⟩ : Record).keys⟩ ∧
      ((CsvOutput.init none 140).run
          ([⟨[]⟩, ⟨[]⟩] ++ [⟨[("foo","1"),("bar","2")]⟩])).emitted = []) :=
  ⟨by decide, by decide,
    c7_empty_then_commit none 140 [⟨[]⟩, ⟨[]⟩] ⟨[("foo","1"),("bar","2")]⟩
      (by decide) (by decide)⟩

/-- Claim C9: calling `record` with an argument that is not a
`TabularInput` raises the distinguished unacceptable-type `ValueError`
with the writer state unchanged, and `record` never raises it for a
`TabularInput`. -/
theorem c9_unacceptable_type (o : CsvOutput) :
    o.record .other = .error o "Unacceptable type."
      ∧ ∀ r : Record, ∃ o2 marked, o.record (.tabular r) = .ok o2 marked :=
  ⟨rfl, fun _ => ⟨_, _, rfl⟩⟩

/-- Claim C10: closing a copy-mode writer that never wrote a record closes
the underlying file, then dereferencing the absent writer raises an
attribute error, leaving the close-time rewrite unperformed (file contents
unchanged). -/
theorem c10_close_uncommitted_copy (o : CsvOutput)
    (h1 : o.inconsistency_handling = some "copy") (h2 : o.writer = none) :
    o.close
      = ({ o with log_file := { o.log_file with closed := true } },
         some "AttributeError") := by
  simp [CsvOutput.close, h1, h2]

/-- Witness for C10: a freshly constructed copy-mode writer. -/
theorem c10_close_uncommitted_copy_witness :
    (CsvOutput.init (some "copy") 140).inconsistency_handling = some "copy"
    ∧ (CsvOutput.init (some "copy") 140).writer = none
    ∧ (CsvOutput.init (some "copy") 140).close
      = ({ CsvOutput.init (some "copy") 140 with
            log_file := { (CsvOutput.init (some "copy") 140).log_file with
                          closed := true } },
         some "AttributeError") :=
  ⟨rfl, rfl, c10_close_uncommitted_copy _ rfl rfl⟩

/-- Counterexample to claim C5 as stated: in default mode with committed
schema `a`, writing a record with keys `a` and `b` marks `b` consumed even
though `b` is outside the schema, contradicting that a field present in
the record but outside the schema is not marked consumed. -/
theorem c5_counterexample :
    (((CsvOutput.init none 140).record_tabular ⟨[("a","1")]⟩).1.writer
        = some ⟨["a"]⟩)
    ∧ ((((CsvOutput.init none 140).record_tabular ⟨[("a","1")]⟩).1.record_tabular
        ⟨[("a","2"),("b","3")]⟩).2 = ["a","b"])
    ∧ ("b" ∉ (["a"] : List String)) := by decide

/-- Claim C5 (amended): after schema commitment in default mode, fields of
the record outside the schema are ignored for row content and never cause
an error (the row covers exactly the schema fields), and every field
present in the record is marked consumed — including fields outside the
schema. -/
theorem c5_amended_marking (o : CsvOutput) (fns : List String) (r : Record)
    (h1 : o.writer = some ⟨fns⟩) (h2 : o.fieldnames = some fns)
    (h3 : o.inconsistency_handling = none)
    (h4 : o.log_file.pos = o.log_file.content.length) :
    (o.record_tabular r).2 = r.keys ∧
    (o.record_tabular r).1.log_file.content
      = o.log_file.content ++ (DictWriter.rowOf ⟨fns⟩ r ++ crlf) ∧
    (o.record_tabular r).1.writer = some ⟨fns⟩ := by
  have h3' : o.inconsistency_handling ≠ some "fixed_header_length" := by
    simp [h3]
  have hE : extendK o.inconsistency_handling fns r.keys = fns := by
    rw [h3]
    exact extendK_of_not_truthy none fns r.keys rfl
  obtain ⟨hm, hw, -, -, -, -, hc, -, -⟩ :=
    record_tabular_committed o fns r h1 h2 h3' h4
  rw [hE] at hw hc
  exact ⟨hm, hc, hw⟩

/-- Witness for C5 (amended) at a concrete committed writer. -/
theorem c5_amended_marking_witness :
    (((CsvOutput.init none 140).record_tabular ⟨[("a","1")]⟩).1.writer
        = some ⟨["a"]⟩
    ∧ ((CsvOutput.init none 140).record_tabular ⟨[("a","1")]⟩).1.fieldnames
        = some ["a"]
    ∧ ((CsvOutput.init none 140).record_tabular
        ⟨[("a","1")]⟩).1.inconsistency_handling = none
    ∧ ((CsvOutput.init none 140).record_tabular ⟨[("a","1")]⟩).1.log_file.pos
        = ((CsvOutput.init none 140).record_tabular
            ⟨[("a","1")]⟩).1.log_file.content.length)
    ∧ ((((CsvOutput.init none 140).record_tabular ⟨[("a","1")]⟩).1.record_tabular
          ⟨[("a","2"),("b","3")]⟩).2 = (⟨[("a","2"),("b","3")]⟩ : Record).keys ∧
      (((CsvOutput.init none 140).record_tabular ⟨[("a","1")]⟩).1.record_tabular
          ⟨[("a","2"),("b","3")]⟩).1.log_file.content
        = ((CsvOutput.init none 140).record_tabular
            ⟨[("a","1")]⟩).1.log_file.content
          ++ (DictWriter.rowOf ⟨["a"]⟩ ⟨[("a","2"),("b","3")]⟩ ++ crlf) ∧
      (((CsvOutput.init none 140).record_tabular ⟨[("a","1")]⟩).1.record_tabular
          ⟨[("a","2"),("b","3")]⟩).1.writer = some ⟨["a"]⟩) :=
  ⟨⟨by decide, by decide, by decide, by decide⟩,
    c5_amended_marking _ ["a"] ⟨[("a","2"),("b","3")]⟩
      (by decide) (by decide) (by decide) (by decide)⟩

theorem padTrunc_length (s : List Char) (w : Nat) :
    (padTrunc s w).length = w := by
  simp [padTrunc]
  omega

/-- Claim C3: in fixed-header-length mode, the header written at schema
commitment is the comma-joined field names padded with trailing spaces to
exactly the configured budget when shorter and truncated to exactly the
budget when longer, followed by the CRLF terminator, so for every budget
and first non-empty record the first line of the file has exactly budget
characters before the terminator. -/
theorem c3_fixed_initial_header (L : Nat) (r : Record) (h : r.keys ≠ []) :
    ((CsvOutput.init (some "fixed_header_length") L).record_tabular
        r).1.log_file.content
      = (padTrunc (strJoinComma r.keys) L ++ crlf)
        ++ (DictWriter.rowOf ⟨r.keys⟩ r ++ crlf)
    ∧ (padTrunc (strJoinComma r.keys) L).length = L := by
  have hk : ¬r.keys.isEmpty := by simp [h]
  rw [record_tabular_first _ r rfl hk]
  refine ⟨?_, padTrunc_length _ _⟩
  have e1 : (CsvOutput.init (some "fixed_header_length") L).commit r.keys
      = { CsvOutput.init (some "fixed_header_length") L with
          fieldnames := some r.keys, writer := some ⟨r.keys⟩,
          log_file := ⟨padTrunc (strJoinComma r.keys) L ++ crlf,
                       (padTrunc (strJoinComma r.keys) L ++ crlf).length,
                       false⟩ } := by
    simp [CsvOutput.commit, CsvOutput.init, FileStream.write]
  rw [e1]
  simp [CsvOutput.writerow, FileStream.write, CsvOutput.init]
  rw [← List.length_append, List.take_length,
    List.drop_eq_nil_of_le (Nat.le_add_right _ _)]
  simp

/-- Witness for C3: a one-field record under a budget of 6. -/
theorem c3_fixed_initial_header_witness :
    (⟨[("ab","1")]⟩ : Record).keys ≠ []
    ∧ (((CsvOutput.init (some "fixed_header_length") 6).record_tabular
          (⟨[("ab","1")]⟩ : Record)).1.log_file.content
        = (padTrunc (strJoinComma (⟨[("ab","1")]⟩ : Record).keys) 6 ++ crlf)
          ++ (DictWriter.rowOf ⟨(⟨[("ab","1")]⟩ : Record).keys⟩
                ⟨[("ab","1")]⟩ ++ crlf)
      ∧ (padTrunc (strJoinComma (⟨[("ab","1")]⟩ : Record).keys) 6).length
          = 6) :=
  ⟨by decide, c3_fixed_initial_header 6 ⟨[("ab","1")]⟩ (by decide)⟩

theorem extendK_extends (impl : Option String) (fns keys : List String) :
    ∃ t, extendK impl fns keys = fns ++ t := by
  unfold extendK
  split
  · exact ⟨[], by simp⟩
  · split
    · exact ⟨_, rfl⟩
    · exact ⟨[], by simp⟩

theorem schemaRun_extends (impl : Option String) (fns : List String)
    (rs : List Record) : ∃ t, schemaRun impl fns rs = fns ++ t := by
  induction rs generalizing fns with
  | nil => exact ⟨[], by simp [schemaRun]⟩
  | cons r rs ih =>
    obtain ⟨t1, h1⟩ := extendK_extends impl fns r.keys
    obtain ⟨t2, h2⟩ := ih (extendK impl fns r.keys)
    exact ⟨t1 ++ t2, by
      simp only [schemaRun, List.foldl_cons] at h2 ⊢
      rw [h2, h1, List.append_assoc]⟩

theorem handle_schema (o : CsvOutput) (fns keys : List String)
    (h1 : o.writer = some ⟨fns⟩) (h2 : o.fieldnames = some fns) :
    (o.handle_inconsistency keys).writer
      = some ⟨extendK o.inconsistency_handling fns keys⟩ ∧
    (o.handle_inconsistency keys).fieldnames
      = some (extendK o.inconsistency_handling fns keys) ∧
    (o.handle_inconsistency keys).inconsistency_handling
      = o.inconsistency_handling := by
  by_cases hs : sameSet keys fns = true
  · simp [CsvOutput.handle_inconsistency, h1, h2, hs, extendK]
  · by_cases ht : pyTruthy o.inconsistency_handling = true
    · by_cases he : ∀ a ∈ keys, a ∈ fns
      · have hf0 : List.filter (fun k => !decide (k ∈ fns)) keys = [] := by
          rw [List.filter_eq_nil_iff]
          intro a ha
          simp [he a ha]
        simp [CsvOutput.handle_inconsistency, h1, h2, hs, ht, extendK,
          CsvOutput.warn, hf0]
      · have hf1 : ¬(List.filter (fun k => !decide (k ∈ fns)) keys = []) := by
          rw [List.filter_eq_nil_iff]
          intro hc
          exact he (fun a ha => by simpa using hc a ha)
        by_cases hfx : o.inconsistency_handling = some "fixed_header_length"
        · simp [CsvOutput.handle_inconsistency, h1, h2, hs, ht, extendK,
            CsvOutput.warn, hf1, hfx, pyTruthy]
        · simp [CsvOutput.handle_inconsistency, h1, h2, hs, ht, extendK,
            CsvOutput.warn, hf1, hfx]
    · simp [CsvOutput.handle_inconsistency, h1, h2, hs, ht, extendK,
        CsvOutput.warn]

theorem record_tabular_schema (o : CsvOutput) (fns : List String)
    (r : Record)
    (h1 : o.writer = some ⟨fns⟩) (h2 : o.fieldnames = some fns) :
    (o.record_tabular r).1.writer
      = some ⟨extendK o.inconsistency_handling fns r.keys⟩ ∧
    (o.record_tabular r).1.fieldnames
      = some (extendK o.inconsistency_handling fns r.keys) ∧
    (o.record_tabular r).1.inconsistency_handling
      = o.inconsistency_handling := by
  rw [record_tabular_committed_eq o r (by simp [h1])]
  obtain ⟨ha, hb, hc⟩ := handle_schema o fns r.keys h1 h2
  have hwp := writerow_proj (o.handle_inconsistency r.keys) r
  exact ⟨by rw [hwp.1, ha], by rw [hwp.2.1, hb], by rw [hwp.2.2.1, hc]⟩

/-- Counterexample to claim C4's order clause: with committed schema `a`
and incoming keys `b, c, a`, the enumeration `c, b` is a legal outcome of
the Python set difference `to_csv.keys() - self._fieldnames` (set
iteration order is hash-dependent and unspecified), yet it differs from
the first-appearance enumeration `b, c`; so the program does not
guarantee that new field names are appended in order of first appearance
in the incoming record. -/
theorem c4_order_counterexample :
    legalNewBatch ["a"] ["b", "c", "a"] ["c", "b"]
    ∧ ["c", "b"]
        ≠ ["b", "c", "a"].filter
            (fun k => !(["a"] : List String).contains k) :=
  ⟨⟨by decide, by decide, by decide⟩, by decide⟩

/-- Claim C4 (amended): once committed, the schema is only ever extended:
after any further sequence of writes the committed field names remain an
initial prefix of the writer's field-name sequence in their original
order, nothing removed or reordered; a single extension either leaves the
schema unchanged or appends one duplicate-free enumeration of exactly the
record's new field names, the batch's internal order being unspecified by
the program (Python set iteration order); and every legal enumeration
yields the same membership and duplicate-freeness guarantees. -/
theorem c4_schema_extension_amended (o : CsvOutput) (fns : List String)
    (rs : List Record)
    (h1 : o.writer = some ⟨fns⟩) (h2 : o.fieldnames = some fns) :
    (o.run rs).writer
      = some ⟨schemaRun o.inconsistency_handling fns rs⟩ ∧
    (∃ t, schemaRun o.inconsistency_handling fns rs = fns ++ t) ∧
    (∀ g : List String, ∀ r : Record, r.keys.Nodup →
      extendK o.inconsistency_handling g r.keys = g ∨
      ∃ batch, legalNewBatch g r.keys batch ∧
        extendK o.inconsistency_handling g r.keys = g ++ batch) ∧
    (∀ g keys batch : List String, legalNewBatch g keys batch →
      (∀ k, k ∈ g ++ batch ↔ (k ∈ g ∨ (k ∈ keys ∧ k ∉ g))) ∧
      (g.Nodup → (g ++ batch).Nodup)) := by
  refine ⟨?_, schemaRun_extends _ fns rs, ?_, ?_⟩
  · induction rs generalizing o fns with
    | nil => exact h1
    | cons r rs ih =>
      obtain ⟨ha, hb, hc⟩ := record_tabular_schema o fns r h1 h2
      rw [run_cons]
      have := ih (o.record_tabular r).1
        (extendK o.inconsistency_handling fns r.keys) ha hb
      rw [hc] at this
      exact this
  · intro g r hnd
    unfold extendK
    split
    · exact Or.inl rfl
    · split
      · refine Or.inr
          ⟨r.keys.filter (fun k => !g.contains k), ⟨?_, ?_, ?_⟩, rfl⟩
        · exact hnd.filter _
        · intro b hb
          rw [List.mem_filter] at hb
          refine ⟨hb.1, ?_⟩
          simpa using hb.2
        · intro k hk hng
          rw [List.mem_filter]
          exact ⟨hk, by simpa using hng⟩
      · exact Or.inl rfl
  · intro g keys batch hleg
    obtain ⟨hnd, hmem, hcov⟩ := hleg
    constructor
    · intro k
      constructor
      · intro hk
        rcases List.mem_append.mp hk with h | h
        · exact Or.inl h
        · exact Or.inr (hmem k h)
      · intro hk
        rcases hk with h | ⟨hk1, hk2⟩
        · exact List.mem_append.mpr (Or.inl h)
        · exact List.mem_append.mpr (Or.inr (hcov k hk1 hk2))
    · intro hg
      refine List.Nodup.append hg hnd ?_
      intro a ha hb
      exact (hmem a hb).2 ha

/-- Witness for C4 (amended): a copy-mode writer committed to schema `a`,
then a record introducing `b`. -/
theorem c4_schema_extension_amended_witness :
    (((CsvOutput.init (some "copy") 140).record_tabular
        ⟨[("a","1")]⟩).1.writer = some ⟨["a"]⟩
    ∧ ((CsvOutput.init (some "copy") 140).record_tabular
        ⟨[("a","1")]⟩).1.fieldnames = some ["a"])
    ∧ (((((CsvOutput.init (some "copy") 140).record_tabular
          ⟨[("a","1")]⟩).1.run [⟨[("b","2"),("a","3")]⟩]).writer
        = some ⟨schemaRun (((CsvOutput.init (some "copy") 140).record_tabular
              ⟨[("a","1")]⟩).1.inconsistency_handling) ["a"]
            [⟨[("b","2"),("a","3")]⟩]⟩)
      ∧ (∃ t, schemaRun (((CsvOutput.init (some "copy") 140).record_tabular
              ⟨[("a","1")]⟩).1.inconsistency_handling) ["a"]
            [⟨[("b","2"),("a","3")]⟩] = ["a"] ++ t)
      ∧ (∀ g : List String, ∀ r : Record, r.keys.Nodup →
          extendK (((CsvOutput.init (some "copy") 140).record_tabular
              ⟨[("a","1")]⟩).1.inconsistency_handling) g r.keys = g ∨
          ∃ batch, legalNewBatch g r.keys batch ∧
            extendK (((CsvOutput.init (some "copy") 140).record_tabular
                ⟨[("a","1")]⟩).1.inconsistency_handling) g r.keys
              = g ++ batch)
      ∧ (∀ g keys batch : List String, legalNewBatch g keys batch →
          (∀ k, k ∈ g ++ batch ↔ (k ∈ g ∨ (k ∈ keys ∧ k ∉ g))) ∧
          (g.Nodup → (g ++ batch).Nodup))) :=
  ⟨⟨by decide, by decide⟩,
    c4_schema_extension_amended _ ["a"] [⟨[("b","2"),("a","3")]⟩]
      (by decide) (by decide)⟩

theorem handle_fixed_patch (o : CsvOutput) (fns keys : List String)
    (h1 : o.writer = some ⟨fns⟩) (h2 : o.fieldnames = some fns)
    (h3 : o.inconsistency_handling = some "fixed_header_length")
    (hs : sameSet keys fns = false)
    (hne : ¬∀ a ∈ keys, a ∈ fns) :
    (o.handle_inconsistency keys).log_file.content
      = (strJoinComma (fns ++ keys.filter (fun k => !fns.contains k))).take
          (min (strJoinComma
              (fns ++ keys.filter (fun k => !fns.contains k))).length
            o.header_length)
        ++ o.log_file.content.drop
          (min (strJoinComma
              (fns ++ keys.filter (fun k => !fns.contains k))).length
            o.header_length) ∧
    (o.handle_inconsistency keys).log_file.pos
      = (o.handle_inconsistency keys).log_file.content.length ∧
    (o.handle_inconsistency keys).writer
      = some ⟨fns ++ keys.filter (fun k => !fns.contains k)⟩ ∧
    (o.handle_inconsistency keys).fieldnames
      = some (fns ++ keys.filter (fun k => !fns.contains k)) ∧
    (o.handle_inconsistency keys).inconsistency_handling
      = o.inconsistency_handling ∧
    (o.handle_inconsistency keys).header_length = o.header_length ∧
    (o.handle_inconsistency keys).log_file.closed = o.log_file.closed := by
  have hs' : ¬(sameSet keys fns = true) := by simp [hs]
  have hf1 : ¬(List.filter (fun k => !decide (k ∈ fns)) keys = []) := by
    rw [List.filter_eq_nil_iff]
    intro hc
    exact hne (fun a ha => by simpa using hc a ha)
  have hlen : ((strJoinComma
      (fns ++ List.filter (fun k => !decide (k ∈ fns)) keys)).take
        (min (strJoinComma
          (fns ++ List.filter (fun k => !decide (k ∈ fns)) keys)).length
          o.header_length)).length
      = min (strJoinComma
          (fns ++ List.filter (fun k => !decide (k ∈ fns)) keys)).length
          o.header_length := by
    rw [List.length_take]
    omega
  simp [CsvOutput.handle_inconsistency, h1, h2, hs', hf1, h3, pyTruthy,
    CsvOutput.warn, FileStream.seekStart, FileStream.seekEnd,
    FileStream.write, hlen]

/-- Claim C2: in fixed-header-length mode, a write that extends the
committed schema patches the header in place: it seeks to the start,
writes exactly `min(len(header), budget)` characters of the comma-joined
extended field list, and restores the position to the end; every byte of
the file from that point on — the original trailing padding, the header
line terminator, and all previously written data rows — is unchanged, the
only other effect being the newly appended data row. -/
theorem c2_fixed_header_patch (o : CsvOutput) (fns : List String)
    (r : Record)
    (h1 : o.writer = some ⟨fns⟩) (h2 : o.fieldnames = some fns)
    (h3 : o.inconsistency_handling = some "fixed_header_length")
    (hs : sameSet r.keys fns = false)
    (hne : ¬∀ a ∈ r.keys, a ∈ fns) :
    (o.record_tabular r).1.log_file.content
      = (strJoinComma (fns ++ r.keys.filter (fun k => !fns.contains k))).take
          (min (strJoinComma
              (fns ++ r.keys.filter (fun k => !fns.contains k))).length
            o.header_length)
        ++ (o.log_file.content.drop
            (min (strJoinComma
                (fns ++ r.keys.filter (fun k => !fns.contains k))).length
              o.header_length)
          ++ (DictWriter.rowOf
                ⟨fns ++ r.keys.filter (fun k => !fns.contains k)⟩ r
              ++ crlf)) ∧
    ((strJoinComma (fns ++ r.keys.filter (fun k => !fns.contains k))).take
        (min (strJoinComma
            (fns ++ r.keys.filter (fun k => !fns.contains k))).length
          o.header_length)).length
      = min (strJoinComma
          (fns ++ r.keys.filter (fun k => !fns.contains k))).length
          o.header_length ∧
    min (strJoinComma
        (fns ++ r.keys.filter (fun k => !fns.contains k))).length
        o.header_length ≤ o.header_length ∧
    (o.record_tabular r).1.log_file.pos
      = (o.record_tabular r).1.log_file.content.length ∧
    (o.record_tabular r).1.writer
      = some ⟨fns ++ r.keys.filter (fun k => !fns.contains k)⟩ := by
  rw [record_tabular_committed_eq o r (by simp [h1])]
  obtain ⟨ha, hb, hc, hd, he', hf, hg⟩ :=
    handle_fixed_patch o fns r.keys h1 h2 h3 hs hne
  have hcontent :
      ((o.handle_inconsistency r.keys).writerow r).log_file.content
        = (o.handle_inconsistency r.keys).log_file.content
          ++ (DictWriter.rowOf
                ⟨fns ++ r.keys.filter (fun k => !fns.contains k)⟩ r
              ++ crlf) := by
    simp only [CsvOutput.writerow, hc, Option.getD_some]
    rw [write_at_end _ _ hb]
  constructor
  · rw [hcontent, ha, List.append_assoc]
  refine ⟨?_, Nat.min_le_right _ _, ?_, ?_⟩
  · rw [List.length_take]
    omega
  · rw [hcontent]
    simp only [CsvOutput.writerow, hc, Option.getD_some]
    rw [write_at_end _ _ hb]
    simp
  · rw [(writerow_proj _ _).1, hc]

/-- Witness for C2: a fixed-mode writer with budget 10 committed to schema
`a`, then a record introducing `b`. -/
theorem c2_fixed_header_patch_witness :
    (sampleFixed10.writer = some ⟨["a"]⟩
      ∧ sampleFixed10.fieldnames = some ["a"]
      ∧ sampleFixed10.inconsistency_handling = some "fixed_header_length"
      ∧ sameSet sampleAB.keys ["a"] = false
      ∧ ¬∀ a ∈ sampleAB.keys, a ∈ (["a"] : List String))
    ∧ ((sampleFixed10.record_tabular sampleAB).1.log_file.content
        = (strJoinComma (["a"] ++ sampleAB.keys.filter
              (fun k => !(["a"] : List String).contains k))).take
            (min (strJoinComma (["a"] ++ sampleAB.keys.filter
                (fun k => !(["a"] : List String).contains k))).length
              sampleFixed10.header_length)
          ++ (sampleFixed10.log_file.content.drop
              (min (strJoinComma (["a"] ++ sampleAB.keys.filter
                  (fun k => !(["a"] : List String).contains k))).length
                sampleFixed10.header_length)
            ++ (DictWriter.rowOf ⟨["a"] ++ sampleAB.keys.filter
                  (fun k => !(["a"] : List String).contains k)⟩ sampleAB
                ++ crlf))) :=
  ⟨⟨by decide, by decide, by decide, by decide, by decide⟩,
    (c2_fixed_header_patch sampleFixed10 ["a"] sampleAB
      (by decide) (by decide) (by decide) (by decide) (by decide)).1⟩

theorem warn_fields_congr (a b : CsvOutput) (m : String)
    (h1 : a.warned_once = b.warned_once) (h2 : a.emitted = b.emitted)
    (h3 : a.disable_warnings = b.disable_warnings) :
    (a.warn m).warned_once = (b.warn m).warned_once
      ∧ (a.warn m).emitted = (b.warn m).emitted := by
  simp [CsvOutput.warn, h1, h2, h3]

theorem handle_warn_fields (o : CsvOutput) (keys : List String) :
    (o.handle_inconsistency keys).disable_warnings = o.disable_warnings ∧
    (((o.handle_inconsistency keys).warned_once = o.warned_once
        ∧ (o.handle_inconsistency keys).emitted = o.emitted)
      ∨ ∃ msg,
          (o.handle_inconsistency keys).warned_once
            = (o.warn msg).warned_once
          ∧ (o.handle_inconsistency keys).emitted = (o.warn msg).emitted) := by
  by_cases hs : sameSet keys (o.fieldnames.getD []) = true
  · constructor
    · simp [CsvOutput.handle_inconsistency, hs]
    · left
      constructor <;> simp [CsvOutput.handle_inconsistency, hs]
  · by_cases ht : pyTruthy o.inconsistency_handling = true
    · by_cases he : ∀ a ∈ keys, a ∈ o.fieldnames.getD []
      · have hf0 : List.filter
            (fun k => !decide (k ∈ o.fieldnames.getD [])) keys = [] := by
          rw [List.filter_eq_nil_iff]
          intro a ha
          simp [he a ha]
        refine ⟨?_, Or.inr ⟨warnMsg (o.fieldnames.getD []) keys, ?_, ?_⟩⟩ <;>
          simp [CsvOutput.handle_inconsistency, hs, ht, hf0, CsvOutput.warn]
      · have hf1 : ¬(List.filter
            (fun k => !decide (k ∈ o.fieldnames.getD [])) keys = []) := by
          rw [List.filter_eq_nil_iff]
          intro hc
          exact he (fun a ha => by simpa using hc a ha)
        by_cases hfx : o.inconsistency_handling = some "fixed_header_length"
        · refine ⟨?_, Or.inr ⟨warnMsg (o.fieldnames.getD []) keys, ?_, ?_⟩⟩ <;>
            simp [CsvOutput.handle_inconsistency, hs, ht, hf1, hfx, pyTruthy,
              CsvOutput.warn]
        · refine ⟨?_, Or.inr ⟨warnMsg (o.fieldnames.getD []) keys, ?_, ?_⟩⟩ <;>
            simp [CsvOutput.handle_inconsistency, hs, ht, hf1, hfx,
              CsvOutput.warn]
    · refine ⟨?_, Or.inr ⟨warnMsg (o.fieldnames.getD []) keys, ?_, ?_⟩⟩ <;>
        simp [CsvOutput.handle_inconsistency, hs, ht, CsvOutput.warn]

theorem record_tabular_warn_fields (o : CsvOutput) (r : Record) :
    (o.record_tabular r).1.disable_warnings = o.disable_warnings ∧
    (((o.record_tabular r).1.warned_once = o.warned_once
        ∧ (o.record_tabular r).1.emitted = o.emitted)
      ∨ ∃ msg,
          (o.record_tabular r).1.warned_once = (o.warn msg).warned_once
          ∧ (o.record_tabular r).1.emitted = (o.warn msg).emitted) := by
  by_cases h0 : (r.keys.isEmpty && o.writer.isNone) = true
  · refine ⟨?_, Or.inl ⟨?_, ?_⟩⟩ <;> simp [CsvOutput.record_tabular, h0]
  · have hstep : o.record_tabular r
        = (((if o.writer.isNone then o.commit r.keys else o).handle_inconsistency
            r.keys).writerow r, r.keys) := by
      simp only [CsvOutput.record_tabular]
      rw [if_neg h0]
    have hw1 : (if o.writer.isNone then o.commit r.keys else o).warned_once
          = o.warned_once
        ∧ (if o.writer.isNone then o.commit r.keys else o).emitted = o.emitted
        ∧ (if o.writer.isNone then o.commit r.keys else o).disable_warnings
          = o.disable_warnings := by
      split
      · exact ⟨(commit_proj _ _).2.2.2.2.1, (commit_proj _ _).2.2.2.2.2.1,
          (commit_proj _ _).2.2.2.2.2.2.1⟩
      · exact ⟨rfl, rfl, rfl⟩
    rw [hstep]
    have hwp := writerow_proj
      ((if o.writer.isNone then o.commit r.keys else o).handle_inconsistency
        r.keys) r
    obtain ⟨hd, hcases⟩ := handle_warn_fields
      (if o.writer.isNone then o.commit r.keys else o) r.keys
    constructor
    · rw [hwp.2.2.2.2.2.2.1, hd, hw1.2.2]
    rcases hcases with ⟨ha, hb⟩ | ⟨msg, ha, hb⟩
    · left
      exact ⟨by rw [hwp.2.2.2.2.1, ha, hw1.1],
        by rw [hwp.2.2.2.2.2.1, hb, hw1.2.1]⟩
    · right
      have hcg := warn_fields_congr _ o msg hw1.1 hw1.2.1 hw1.2.2
      exact ⟨msg, by rw [hwp.2.2.2.2.1, ha, hcg.1],
        by rw [hwp.2.2.2.2.2.1, hb, hcg.2]⟩

theorem warn_step_inv (o : CsvOutput) (msg : String)
    (hnd : o.emitted.Nodup) (hsub : ∀ m ∈ o.emitted, m ∈ o.warned_once) :
    (o.warn msg).emitted.Nodup
    ∧ (∀ m ∈ (o.warn msg).emitted, m ∈ (o.warn msg).warned_once)
    ∧ (∀ m ∈ o.warned_once, m ∈ (o.warn msg).warned_once)
    ∧ (∀ m ∈ o.emitted, m ∈ (o.warn msg).emitted)
    ∧ (o.disable_warnings = false →
        ∀ m, m ∈ (o.warn msg).warned_once → m ∉ o.warned_once
          → m ∈ (o.warn msg).emitted) := by
  by_cases hm : msg ∈ o.warned_once
  · refine ⟨?_, ?_, ?_, ?_, ?_⟩
    · simpa [CsvOutput.warn, hm] using hnd
    · intro m hmem
      simp [CsvOutput.warn, hm] at hmem ⊢
      exact hsub m hmem
    · intro m hmem
      simp [CsvOutput.warn, hm, hmem]
    · intro m hmem
      simp [CsvOutput.warn, hm, hmem]
    · intro _ m hmem hn
      simp [CsvOutput.warn, hm] at hmem
      exact absurd hmem hn
  · by_cases hd : o.disable_warnings = false
    · have hne : msg ∉ o.emitted := fun hc => hm (hsub msg hc)
      refine ⟨?_, ?_, ?_, ?_, ?_⟩
      · simp [CsvOutput.warn, hm, hd, List.nodup_append, hnd, hne]
      · intro m hmem
        simp [CsvOutput.warn, hm, hd] at hmem ⊢
        rcases hmem with h | h
        · exact Or.inl (hsub m h)
        · exact Or.inr h
      · intro m hmem
        simp [CsvOutput.warn, hm, hd, hmem]
      · intro m hmem
        simp [CsvOutput.warn, hm, hd, hmem]
      · intro _ m hmem hnot
        simp [CsvOutput.warn, hm, hd] at hmem ⊢
        rcases hmem with h | h
        · exact absurd h hnot
        · exact Or.inr h
    · refine ⟨?_, ?_, ?_, ?_, ?_⟩
      · simp [CsvOutput.warn, hm, hd, hnd]
      · intro m hmem
        simp [CsvOutput.warn, hm, hd] at hmem ⊢
        exact Or.inl (hsub m hmem)
      · intro m hmem
        simp [CsvOutput.warn, hm, hd, hmem]
      · intro m hmem
        simp [CsvOutput.warn, hm, hd, hmem]
      · intro hc
        exact absurd hc hd

theorem record_warn_inv (o : CsvOutput) (r : Record)
    (hnd : o.emitted.Nodup) (hsub : ∀ m ∈ o.emitted, m ∈ o.warned_once) :
    (o.record_tabular r).1.emitted.Nodup
    ∧ (∀ m ∈ (o.record_tabular r).1.emitted,
        m ∈ (o.record_tabular r).1.warned_once)
    ∧ (∀ m ∈ o.warned_once, m ∈ (o.record_tabular r).1.warned_once)
    ∧ (∀ m ∈ o.emitted, m ∈ (o.record_tabular r).1.emitted)
    ∧ (o.record_tabular r).1.disable_warnings = o.disable_warnings
    ∧ (o.disable_warnings = false →
        ∀ m, m ∈ (o.record_tabular r).1.warned_once → m ∉ o.warned_once
          → m ∈ (o.record_tabular r).1.emitted) := by
  obtain ⟨hd, hcases⟩ := record_tabular_warn_fields o r
  rcases hcases with ⟨ha, hb⟩ | ⟨msg, ha, hb⟩
  · rw [ha, hb]
    exact ⟨hnd, hsub, fun m hm => hm, fun m hm => hm, hd,
      fun _ m hm hn => absurd hm hn⟩
  · rw [ha, hb]
    obtain ⟨w1, w2, w3, w4, w5⟩ := warn_step_inv o msg hnd hsub
    exact ⟨w1, w2, w3, w4, hd, w5⟩

theorem run_warn_inv (o : CsvOutput) (rs : List Record)
    (hnd : o.emitted.Nodup) (hsub : ∀ m ∈ o.emitted, m ∈ o.warned_once) :
    (o.run rs).emitted.Nodup
    ∧ (∀ m ∈ (o.run rs).emitted, m ∈ (o.run rs).warned_once)
    ∧ (∀ m ∈ o.warned_once, m ∈ (o.run rs).warned_once)
    ∧ (∀ m ∈ o.emitted, m ∈ (o.run rs).emitted)
    ∧ (o.run rs).disable_warnings = o.disable_warnings
    ∧ (o.disable_warnings = false →
        ∀ m, m ∈ (o.run rs).warned_once → m ∉ o.warned_once
          → m ∈ (o.run rs).emitted) := by
  induction rs generalizing o with
  | nil =>
    exact ⟨hnd, hsub, fun m hm => hm, fun m hm => hm, rfl,
      fun _ m hm hn => absurd hm hn⟩
  | cons r rs ih =>
    obtain ⟨s1, s2, s3, s4, s5, s6⟩ := record_warn_inv o r hnd hsub
    obtain ⟨i1, i2, i3, i4, i5, i6⟩ := ih (o.record_tabular r).1 s1 s2
    rw [run_cons]
    refine ⟨i1, i2, fun m hm => i3 m (s3 m hm), fun m hm => i4 m (s4 m hm),
      by rw [i5, s5], ?_⟩
    intro hdis m hm hn
    by_cases hmid : m ∈ (o.record_tabular r).1.warned_once
    · exact i4 m (s6 hdis m hmid hn)
    · exact i6 (by rw [s5]; exact hdis) m hm hmid

/-- Claim C6: over any sequence of writes, the trace of emitted
schema-inconsistency warnings never repeats a message text (at most one
emission per distinct text for the writer's lifetime), and — when warnings
are enabled — every message newly added to the warned-once set during the
run was actually emitted, so distinct message texts each surface exactly
once. -/
theorem c6_warning_dedup (o : CsvOutput) (rs : List Record)
    (hnd : o.emitted.Nodup) (hsub : ∀ m ∈ o.emitted, m ∈ o.warned_once) :
    (o.run rs).emitted.Nodup
    ∧ (o.disable_warnings = false →
        ∀ m, m ∈ (o.run rs).warned_once → m ∉ o.warned_once
          → m ∈ (o.run rs).emitted) := by
  obtain ⟨h1, -, -, -, -, h6⟩ := run_warn_inv o rs hnd hsub
  exact ⟨h1, h6⟩

/-- Witness for C6: a fresh default-mode writer, a commit of schema `a`,
then the same inconsistent record written twice. -/
theorem c6_warning_dedup_witness :
    ((CsvOutput.init none 140).emitted.Nodup
    ∧ (∀ m ∈ (CsvOutput.init none 140).emitted,
        m ∈ (CsvOutput.init none 140).warned_once))
    ∧ (((CsvOutput.init none 140).run
          [⟨[("a","1")]⟩, sampleAB, sampleAB]).emitted.Nodup
      ∧ ((CsvOutput.init none 140).disable_warnings = false →
          ∀ m, m ∈ ((CsvOutput.init none 140).run
              [⟨[("a","1")]⟩, sampleAB, sampleAB]).warned_once
            → m ∉ (CsvOutput.init none 140).warned_once
            → m ∈ ((CsvOutput.init none 140).run
                [⟨[("a","1")]⟩, sampleAB, sampleAB]).emitted)) :=
  ⟨⟨List.nodup_nil, by simp [CsvOutput.init]⟩,
    c6_warning_dedup (CsvOutput.init none 140)
      [⟨[("a","1")]⟩, sampleAB, sampleAB]
      List.nodup_nil (by simp [CsvOutput.init])⟩

theorem splitOnElem_ne_nil (c : Char) (l : List Char) :
    splitOnElem c l ≠ [] := by
  cases l with
  | nil => simp [splitOnElem]
  | cons x xs =>
    unfold splitOnElem
    cases splitOnElem c xs with
    | nil => simp
    | cons h t =>
      by_cases hx : x = c <;> simp [hx]

theorem splitOnElem_no_sep (c : Char) (l : List Char) (h : c ∉ l) :
    splitOnElem c l = [l] := by
  induction l with
  | nil => rfl
  | cons x xs ih =>
    have hx : ¬(x = c) := fun hc => h (hc ▸ List.mem_cons_self x xs)
    have hxs : c ∉ xs := fun hc => h (List.mem_cons_of_mem x hc)
    simp only [splitOnElem, ih hxs, if_neg hx]

theorem splitOnElem_append_cons (c : Char) (a b : List Char) (h : c ∉ a) :
    splitOnElem c (a ++ c :: b) = a :: splitOnElem c b := by
  induction a with
  | nil =>
    simp only [List.nil_append, splitOnElem]
    cases hsb : splitOnElem c b with
    | nil => exact absurd hsb (splitOnElem_ne_nil c b)
    | cons hh tt => simp
  | cons x xs ih =>
    have hx : ¬(x = c) := fun hc => h (hc ▸ List.mem_cons_self x xs)
    have hxs : c ∉ xs := fun hc => h (List.mem_cons_of_mem x hc)
    have step : splitOnElem c (x :: (xs ++ c :: b))
        = match splitOnElem c (xs ++ c :: b) with
          | [] => [[]]
          | hh :: tt => if x = c then [] :: hh :: tt else (x :: hh) :: tt :=
      rfl
    show splitOnElem c (x :: (xs ++ c :: b)) = _
    rw [step, ih hxs]
    simp [hx]

theorem joinComma_cons (c : List Char) (cs : List (List Char))
    (h : cs ≠ []) : joinComma (c :: cs) = c ++ ',' :: joinComma cs := by
  cases cs with
  | nil => exact absurd rfl h
  | cons c2 t => rfl

theorem splitOnElem_joinComma (cells : List (List Char)) (h : cells ≠ [])
    (hc : ∀ cl ∈ cells, ',' ∉ cl) :
    splitOnElem ',' (joinComma cells) = cells := by
  induction cells with
  | nil => exact absurd rfl h
  | cons c cs ih =>
    cases cs with
    | nil =>
      simp only [joinComma]
      exact splitOnElem_no_sep ',' c (hc c (by simp))
    | cons c2 t =>
      rw [joinComma_cons c (c2 :: t) (by simp),
        splitOnElem_append_cons ',' c _ (hc c (by simp)),
        ih (by simp) (fun cl hcl => hc cl (List.mem_cons_of_mem c hcl))]

theorem joinComma_ne_nil_of_two (c1 c2 : List Char) (t : List (List Char)) :
    joinComma (c1 :: c2 :: t) ≠ [] := by
  rw [joinComma_cons c1 (c2 :: t) (by simp)]
  simp

theorem mem_joinComma (x : Char) (cells : List (List Char))
    (h : x ∈ joinComma cells) : x = ',' ∨ ∃ cl ∈ cells, x ∈ cl := by
  induction cells with
  | nil => simp [joinComma] at h
  | cons c cs ih =>
    cases cs with
    | nil =>
      simp only [joinComma] at h
      exact Or.inr ⟨c, by simp, h⟩
    | cons c2 t =>
      rw [joinComma_cons c (c2 :: t) (by simp)] at h
      rcases List.mem_append.mp h with h1 | h1
      · exact Or.inr ⟨c, by simp, h1⟩
      · rcases List.mem_cons.mp h1 with h2 | h2
        · exact Or.inl h2
        · rcases ih h2 with h3 | ⟨cl, hcl, hx⟩
          · exact Or.inl h3
          · exact Or.inr ⟨cl, List.mem_cons_of_mem c hcl, hx⟩

theorem not_mem_joinComma (x : Char) (cells : List (List Char))
    (hx : ¬x = ',') (h : ∀ cl ∈ cells, x ∉ cl) : x ∉ joinComma cells := by
  intro hmem
  rcases mem_joinComma x cells hmem with h1 | ⟨cl, hcl, h2⟩
  · exact hx h1
  · exact h cl hcl h2

theorem unlinesCRLF_cons (l : List Char) (ls : List (List Char)) :
    unlinesCRLF (l :: ls) = l ++ '\r' :: '\n' :: unlinesCRLF ls := rfl

theorem unlinesCRLF_append (ls1 ls2 : List (List Char)) :
    unlinesCRLF (ls1 ++ ls2) = unlinesCRLF ls1 ++ unlinesCRLF ls2 := by
  induction ls1 with
  | nil => rfl
  | cons l ls ih =>
    simp [unlinesCRLF_cons, ih]

theorem stripCR_concat (l : List Char) : stripCR (l ++ ['\r']) = l := by
  rw [stripCR, if_pos (List.getLast?_concat _), List.dropLast_concat]

theorem splitOnElem_unlinesCRLF (ls : List (List Char))
    (h : ∀ l ∈ ls, '\n' ∉ l) :
    splitOnElem '\n' (unlinesCRLF ls)
      = ls.map (fun l => l ++ ['\r']) ++ [[]] := by
  induction ls with
  | nil => rfl
  | cons l ls ih =>
    have hnl : '\n' ∉ l ++ ['\r'] := by
      intro hc
      rcases List.mem_append.mp hc with h1 | h1
      · exact h l (by simp) h1
      · simp at h1
    have : unlinesCRLF (l :: ls) = (l ++ ['\r']) ++ '\n' :: unlinesCRLF ls := by
      rw [unlinesCRLF_cons]
      simp
    rw [this, splitOnElem_append_cons '\n' _ _ hnl,
      ih (fun l' hl' => h l' (List.mem_cons_of_mem l hl'))]
    simp

theorem parseLines_unlinesCRLF (ls : List (List Char))
    (h : ∀ l ∈ ls, '\n' ∉ l) :
    parseLines (unlinesCRLF ls) = ls := by
  rw [parseLines, splitOnElem_unlinesCRLF ls h]
  rw [if_pos (List.getLast?_concat _), List.dropLast_concat, List.map_map]
  have : (stripCR ∘ fun l => l ++ ['\r']) = id := by
    funext l
    exact stripCR_concat l
  rw [this, List.map_id]

theorem cleanCell_spec (s : String) (h : cleanCell s = true) :
    ',' ∉ s.data ∧ '\n' ∉ s.data ∧ '\r' ∉ s.data := by
  simp only [cleanCell, List.all_eq_true, Bool.and_eq_true, Bool.not_eq_eq_eq_not,
    Bool.not_true, beq_eq_false_iff_ne, ne_eq] at h
  exact ⟨fun hc => ((h ',' hc).1.1 rfl), fun hc => ((h '\n' hc).1.2 rfl),
    fun hc => ((h '\r' hc).2 rfl)⟩

theorem Record.clean_keys (r : Record) (h : r.clean = true) :
    ∀ k ∈ r.keys, cleanCell k = true := by
  intro k hk
  rw [Record.keys] at hk
  obtain ⟨p, hp, hpk⟩ := List.mem_map.mp hk
  have := List.all_eq_true.mp h p hp
  rw [Bool.and_eq_true] at this
  exact hpk ▸ this.1

theorem Record.clean_getD (r : Record) (h : r.clean = true) (k d : String)
    (hd : cleanCell d = true) : cleanCell (r.getD k d) = true := by
  unfold Record.getD
  cases hf : r.entries.find? (fun p => p.1 == k) with
  | none => exact hd
  | some p =>
    have hp := List.mem_of_find?_eq_some hf
    have := List.all_eq_true.mp h p hp
    rw [Bool.and_eq_true] at this
    exact this.2

theorem Record.getD_of_not_mem (r : Record) (k d : String)
    (h : k ∉ r.keys) : r.getD k d = d := by
  unfold Record.getD
  cases hf : r.entries.find? (fun p => p.1 == k) with
  | none => rfl
  | some p =>
    exfalso
    have hp := List.mem_of_find?_eq_some hf
    have hk := List.find?_some hf
    rw [beq_iff_eq] at hk
    exact h (hk ▸ List.mem_map_of_mem Prod.fst hp)

theorem map_getD_self (cells : List (List Char)) :
    (List.range cells.length).map (fun i => cells.getD i []) = cells := by
  induction cells with
  | nil => rfl
  | cons c cs ih =>
    rw [List.length_cons, List.range_succ_eq_map, List.map_cons, List.map_map]
    congr 1

theorem extendK_sameSet (impl : Option String) (fns keys : List String)
    (hs : sameSet keys fns = true) : extendK impl fns keys = fns := by
  unfold extendK
  simp [hs]

theorem first_record_nonfixed (o : CsvOutput) (r : Record)
    (h1 : o.writer = none) (hk : ¬r.keys.isEmpty = true)
    (h3 : o.inconsistency_handling ≠ some "fixed_header_length")
    (h4 : o.log_file.pos = o.log_file.content.length) :
    (o.record_tabular r).1.log_file.content
      = o.log_file.content
        ++ unlinesCRLF [strJoinComma r.keys, DictWriter.rowOf ⟨r.keys⟩ r] ∧
    (o.record_tabular r).1.writer = some ⟨r.keys⟩ ∧
    (o.record_tabular r).1.fieldnames = some r.keys ∧
    (o.record_tabular r).1.inconsistency_handling
      = o.inconsistency_handling ∧
    (o.record_tabular r).1.log_file.pos
      = (o.record_tabular r).1.log_file.content.length ∧
    (o.record_tabular r).1.log_file.closed = o.log_file.closed := by
  rw [record_tabular_first o r h1 hk]
  have hcp := commit_proj o r.keys
  have e1 : (o.commit r.keys).log_file
      = ⟨o.log_file.content ++ (strJoinComma r.keys ++ crlf),
         o.log_file.content.length + (strJoinComma r.keys ++ crlf).length,
         o.log_file.closed⟩ := by
    have hw : (o.commit r.keys).log_file
        = o.log_file.write (strJoinComma r.keys ++ crlf) := by
      simp [CsvOutput.commit, h3]
    rw [hw, write_at_end _ _ h4]
  have e2 : ((o.commit r.keys).writerow r).log_file
      = (o.commit r.keys).log_file.write
          (DictWriter.rowOf ⟨r.keys⟩ r ++ crlf) := by
    simp [CsvOutput.writerow, hcp.1]
  have e3 : ((o.commit r.keys).writerow r).log_file
      = ⟨(o.log_file.content ++ (strJoinComma r.keys ++ crlf))
            ++ (DictWriter.rowOf ⟨r.keys⟩ r ++ crlf),
         (o.log_file.content ++ (strJoinComma r.keys ++ crlf)).length
            + (DictWriter.rowOf ⟨r.keys⟩ r ++ crlf).length,
         o.log_file.closed⟩ := by
    rw [e2, e1, write_at_end _ _ (by simp)]
  refine ⟨?_, ?_, ?_, ?_, ?_, ?_⟩
  · rw [e3]
    simp [unlinesCRLF, crlf]
  · rw [(writerow_proj _ _).1, hcp.1]
  · rw [(writerow_proj _ _).2.1, hcp.2.1]
  · rw [(writerow_proj _ _).2.2.1, hcp.2.2.1]
  · rw [e3]
    simp
    omega
  · rw [e3]

theorem run_nonfixed_content (o : CsvOutput) (fns : List String)
    (rs : List Record)
    (h1 : o.writer = some ⟨fns⟩) (h2 : o.fieldnames = some fns)
    (h3 : o.inconsistency_handling ≠ some "fixed_header_length")
    (h4 : o.log_file.pos = o.log_file.content.length) :
    (o.run rs).log_file.content
      = o.log_file.content
        ++ unlinesCRLF (rowLines o.inconsistency_handling fns rs) ∧
    (o.run rs).writer
      = some ⟨schemaRun o.inconsistency_handling fns rs⟩ ∧
    (o.run rs).fieldnames
      = some (schemaRun o.inconsistency_handling fns rs) ∧
    (o.run rs).inconsistency_handling = o.inconsistency_handling ∧
    (o.run rs).log_file.pos = (o.run rs).log_file.content.length ∧
    (o.run rs).log_file.closed = o.log_file.closed := by
  induction rs generalizing o fns with
  | nil =>
    exact ⟨by simp [run_nil, rowLines, unlinesCRLF], h1, h2, rfl, h4, rfl⟩
  | cons r rs ih =>
    obtain ⟨-, sw, sf, si, -, -, sc, sp, scl⟩ :=
      record_tabular_committed o fns r h1 h2 h3 h4
    rw [run_cons]
    obtain ⟨c1, c2, c3, c4, c5, c6⟩ :=
      ih (o.record_tabular r).1 (extendK o.inconsistency_handling fns r.keys)
        sw sf (by rw [si]; exact h3) sp
    rw [si] at c1 c2 c3 c4
    refine ⟨?_, c2, c3, c4, c5, by rw [c6, scl]⟩
    rw [c1, sc]
    have hr : rowLines o.inconsistency_handling fns (r :: rs)
        = DictWriter.rowOf ⟨extendK o.inconsistency_handling fns r.keys⟩ r
          :: rowLines o.inconsistency_handling
              (extendK o.inconsistency_handling fns r.keys) rs := rfl
    rw [hr, unlinesCRLF_cons]
    simp [crlf, List.append_assoc]

theorem rowLines_stable (impl : Option String) (fns : List String)
    (rs : List Record) (hs : ∀ r ∈ rs, sameSet r.keys fns = true) :
    rowLines impl fns rs = rs.map (fun r => DictWriter.rowOf ⟨fns⟩ r) ∧
    schemaRun impl fns rs = fns := by
  induction rs with
  | nil => exact ⟨rfl, rfl⟩
  | cons r rs ih =>
    have hE : extendK impl fns r.keys = fns :=
      extendK_sameSet impl fns r.keys (hs r (by simp))
    obtain ⟨ih1, ih2⟩ := ih (fun r' hr' => hs r' (List.mem_cons_of_mem r hr'))
    constructor
    · show DictWriter.rowOf ⟨extendK impl fns r.keys⟩ r
          :: rowLines impl (extendK impl fns r.keys) rs = _
      rw [hE, ih1, List.map_cons]
    · show schemaRun impl (extendK impl fns r.keys) rs = fns
      rw [hE, ih2]

theorem no_nl_strJoinComma (fns : List String)
    (h : ∀ f ∈ fns, cleanCell f = true) : '\n' ∉ strJoinComma fns := by
  apply not_mem_joinComma _ _ (by decide)
  intro cl hcl
  obtain ⟨f, hf, hfe⟩ := List.mem_map.mp hcl
  intro hmem
  exact (cleanCell_spec f (h f hf)).2.1 (hfe ▸ hmem)

theorem no_nl_rowOf (fns : List String) (r : Record) (hr : r.clean = true) :
    '\n' ∉ DictWriter.rowOf ⟨fns⟩ r := by
  apply not_mem_joinComma _ _ (by decide)
  intro cl hcl
  obtain ⟨f, hf, hfe⟩ := List.mem_map.mp hcl
  intro hmem
  exact (cleanCell_spec _ (Record.clean_getD r hr f "" (by decide))).2.1
    (hfe ▸ hmem)

/-- Claim C8: writing `N` records whose key sets all equal the committed
schema produces, in default mode, a file of exactly `N+1` lines — the
header plus one row per record, in order — and splitting row `i` on the
delimiter returns exactly record `i`'s values under the committed field
order. -/
theorem c8_stable_schema_roundtrip (L : Nat) (r0 : Record)
    (rs : List Record)
    (h0 : r0.keys ≠ [])
    (hs : ∀ r ∈ rs, sameSet r.keys r0.keys = true)
    (hc0 : Record.clean r0 = true)
    (hcs : ∀ r ∈ rs, Record.clean r = true) :
    parseLines (((CsvOutput.init none L).run (r0 :: rs)).log_file.content)
      = strJoinComma r0.keys
          :: (r0 :: rs).map (fun r => DictWriter.rowOf ⟨r0.keys⟩ r) ∧
    (parseLines
        (((CsvOutput.init none L).run (r0 :: rs)).log_file.content)).length
      = (r0 :: rs).length + 1 ∧
    (∀ r ∈ r0 :: rs,
      splitOnElem ',' (DictWriter.rowOf ⟨r0.keys⟩ r)
        = r0.keys.map (fun f => (r.getD f "").data)) := by
  have hkc : ∀ k ∈ r0.keys, cleanCell k = true := Record.clean_keys r0 hc0
  rw [run_cons]
  obtain ⟨f1, f2, f3, f4, f5, -⟩ :=
    first_record_nonfixed (CsvOutput.init none L) r0 rfl (by simp [h0])
      (by simp [CsvOutput.init]) rfl
  obtain ⟨c1, -, -, -, -, -⟩ :=
    run_nonfixed_content ((CsvOutput.init none L).record_tabular r0).1
      r0.keys rs f2 f3 (by rw [f4]; simp [CsvOutput.init]) f5
  rw [f4] at c1
  have hinit : (CsvOutput.init none L).inconsistency_handling = none := rfl
  rw [hinit] at c1
  obtain ⟨st1, -⟩ := rowLines_stable none r0.keys rs hs
  have hcontent :
      (((CsvOutput.init none L).record_tabular r0).1.run rs).log_file.content
        = unlinesCRLF (strJoinComma r0.keys
            :: (r0 :: rs).map (fun r => DictWriter.rowOf ⟨r0.keys⟩ r)) := by
    rw [c1, f1, st1]
    have : (CsvOutput.init none L).log_file.content = [] := rfl
    rw [this, List.nil_append, ← unlinesCRLF_append]
    rfl
  have hparse : parseLines
      ((((CsvOutput.init none L).record_tabular r0).1.run rs).log_file.content)
      = strJoinComma r0.keys
        :: (r0 :: rs).map (fun r => DictWriter.rowOf ⟨r0.keys⟩ r) := by
    rw [hcontent]
    apply parseLines_unlinesCRLF
    intro l hl
    rcases List.mem_cons.mp hl with h | h
    · exact h ▸ no_nl_strJoinComma r0.keys hkc
    · obtain ⟨r, hr, hre⟩ := List.mem_map.mp h
      have hrclean : Record.clean r = true := by
        rcases List.mem_cons.mp hr with h' | h'
        · exact h' ▸ hc0
        · exact hcs r h'
      exact hre ▸ no_nl_rowOf r0.keys r hrclean
  refine ⟨hparse, by rw [hparse]; simp, ?_⟩
  intro r hr
  have hrclean : Record.clean r = true := by
    rcases List.mem_cons.mp hr with h' | h'
    · exact h' ▸ hc0
    · exact hcs r h'
  show splitOnElem ','
      (joinComma (r0.keys.map (fun f => (r.getD f "").data))) = _
  rw [splitOnElem_joinComma]
  · simp [h0]
  · intro cl hcl
    obtain ⟨f, hf, hfe⟩ := List.mem_map.mp hcl
    intro hmem
    exact (cleanCell_spec _
      (Record.clean_getD r hrclean f "" (by decide))).1 (hfe ▸ hmem)

/-- Witness for C8: two records with key sets equal to the committed
two-field schema. -/
theorem c8_stable_schema_roundtrip_witness :
    ((⟨[("a","1"),("b","2")]⟩ : Record).keys ≠ []
    ∧ (∀ r ∈ [(⟨[("b","4"),("a","3")]⟩ : Record)],
        sameSet r.keys (⟨[("a","1"),("b","2")]⟩ : Record).keys = true)
    ∧ Record.clean ⟨[("a","1"),("b","2")]⟩ = true
    ∧ (∀ r ∈ [(⟨[("b","4"),("a","3")]⟩ : Record)], Record.clean r = true))
    ∧ (parseLines (((CsvOutput.init none 140).run
          [⟨[("a","1"),("b","2")]⟩, ⟨[("b","4"),("a","3")]⟩]).log_file.content)
        = strJoinComma (⟨[("a","1"),("b","2")]⟩ : Record).keys
            :: [(⟨[("a","1"),("b","2")]⟩ : Record),
                ⟨[("b","4"),("a","3")]⟩].map
              (fun r => DictWriter.rowOf
                ⟨(⟨[("a","1"),("b","2")]⟩ : Record).keys⟩ r)
      ∧ (parseLines (((CsvOutput.init none 140).run
            [⟨[("a","1"),("b","2")]⟩, ⟨[("b","4"),("a","3")]⟩]).log_file.content)).length
          = [(⟨[("a","1"),("b","2")]⟩ : Record),
             ⟨[("b","4"),("a","3")]⟩].length + 1
      ∧ (∀ r ∈ [(⟨[("a","1"),("b","2")]⟩ : Record), ⟨[("b","4"),("a","3")]⟩],
          splitOnElem ',' (DictWriter.rowOf
              ⟨(⟨[("a","1"),("b","2")]⟩ : Record).keys⟩ r)
            = (⟨[("a","1"),("b","2")]⟩ : Record).keys.map
                (fun f => (r.getD f "").data))) :=
  ⟨⟨by decide, by decide, by decide, by decide⟩,
    c8_stable_schema_roundtrip 140 ⟨[("a","1"),("b","2")]⟩
      [⟨[("b","4"),("a","3")]⟩] (by decide) (by decide) (by decide)
      (by decide)⟩

theorem sameSet_sub (keys fns : List String) (hs : sameSet keys fns = true) :
    ∀ k ∈ keys, k ∈ fns := by
  simp only [sameSet, Bool.and_eq_true, List.all_eq_true] at hs
  intro k hk
  simpa using hs.1 k hk

theorem extendK_keys_sub (impl : Option String) (fns keys : List String)
    (ht : pyTruthy impl = true) :
    ∀ k ∈ keys, k ∈ extendK impl fns keys := by
  intro k hk
  unfold extendK
  split
  · next hs => exact sameSet_sub keys fns hs k hk
  · by_cases hf : k ∈ fns
    · exact List.mem_append.mpr (Or.inl hf)
    · refine List.mem_append.mpr (Or.inr ?_)
      rw [List.mem_filter]
      exact ⟨hk, by simpa using hf⟩

theorem extendK_nodup (impl : Option String) (fns keys : List String)
    (h1 : fns.Nodup) (h2 : keys.Nodup) : (extendK impl fns keys).Nodup := by
  unfold extendK
  split
  · exact h1
  · split
    · refine List.Nodup.append h1 (h2.filter _) ?_
      intro a ha hb
      rw [List.mem_filter] at hb
      simp at hb
      exact hb.2 ha
    · exact h1

theorem schemaRun_nodup (impl : Option String) (fns : List String)
    (rs : List Record) (h1 : fns.Nodup) (h2 : ∀ r ∈ rs, r.keys.Nodup) :
    (schemaRun impl fns rs).Nodup := by
  induction rs generalizing fns with
  | nil => exact h1
  | cons r rs ih =>
    exact ih (extendK impl fns r.keys)
      (extendK_nodup impl fns r.keys h1 (h2 r (by simp)))
      (fun r' hr' => h2 r' (List.mem_cons_of_mem r hr'))

theorem reEmit_pad (F E t : List String) (r : Record)
    (hFE : F = E ++ t) (hnd : F.Nodup)
    (hsub : ∀ k ∈ r.keys, k ∈ E) :
    reEmitRow F (E.map (fun f => (r.getD f "").data))
      = DictWriter.rowOf ⟨F⟩ r := by
  unfold reEmitRow DictWriter.rowOf
  congr 1
  subst hFE
  rw [List.length_append, List.range_add, List.map_append, List.map_append,
    List.map_map]
  congr 1
  · have hlen : (E.map (fun f => (r.getD f "").data)).length = E.length :=
      List.length_map E _
    calc (List.range E.length).map
          (fun i => (E.map (fun f => (r.getD f "").data)).getD i [])
        = (List.range (E.map (fun f => (r.getD f "").data)).length).map
            (fun i => (E.map (fun f => (r.getD f "").data)).getD i []) := by
          rw [hlen]
      _ = E.map (fun f => (r.getD f "").data) := map_getD_self _
  · have hdisj := List.disjoint_of_nodup_append hnd
    have hright : t.map (fun f => (r.getD f "").data)
        = t.map (fun _ => ([] : List Char)) := by
      apply List.map_congr_left
      intro x hx
      have hnotE : x ∉ E := fun hc => (hdisj hc) hx
      have : r.getD x "" = "" :=
        Record.getD_of_not_mem r _ "" (fun hc => hnotE (hsub _ hc))
      simp [this]
    have hleft : (List.range t.length).map
          ((fun i => (E.map (fun f => (r.getD f "").data)).getD i [])
            ∘ fun x => E.length + x)
        = (List.range t.length).map (fun _ => ([] : List Char)) := by
      apply List.map_congr_left
      intro i _
      simp only [Function.comp]
      exact List.getD_eq_default _ _ (by simp [Nat.le_add_right])
    rw [hleft, hright]
    simp

theorem rowOf_ne_nil_of_two (fns : List String) (r : Record)
    (h : 2 ≤ fns.length) : DictWriter.rowOf ⟨fns⟩ r ≠ [] := by
  match fns, h with
  | f1 :: f2 :: t, _ =>
    exact joinComma_ne_nil_of_two _ _ _

theorem strJoinComma_ne_nil_of_two (fns : List String)
    (h : 2 ≤ fns.length) : strJoinComma fns ≠ [] := by
  match fns, h with
  | f1 :: f2 :: t, _ =>
    exact joinComma_ne_nil_of_two _ _ _

theorem rowOf_cells_split (fns : List String) (r : Record)
    (hne : fns ≠ []) (hcl : Record.clean r = true) :
    splitOnElem ',' (DictWriter.rowOf ⟨fns⟩ r)
      = fns.map (fun f => (r.getD f "").data) := by
  unfold DictWriter.rowOf
  rw [splitOnElem_joinComma]
  · simp [hne]
  · intro cl hcl2
    obtain ⟨f, hf, hfe⟩ := List.mem_map.mp hcl2
    intro hmem
    exact (cleanCell_spec _
      (Record.clean_getD r hcl f "" (by decide))).1 (hfe ▸ hmem)

theorem extendK_two_le (impl : Option String) (fns keys : List String)
    (h : 2 ≤ fns.length) : 2 ≤ (extendK impl fns keys).length := by
  obtain ⟨t, ht⟩ := extendK_extends impl fns keys
  rw [ht, List.length_append]
  omega

theorem close_rows_general (F fns : List String) (rs : List Record)
    (hlen : 2 ≤ fns.length) (hndF : F.Nodup)
    (hF : F = schemaRun (some "copy") fns rs)
    (hcl : ∀ r ∈ rs, Record.clean r = true ∧ r.keys.Nodup) :
    (rowLines (some "copy") fns rs).filterMap (fun l2 =>
        if l2.isEmpty then none
        else some (reEmitRow F (splitOnElem ',' l2)))
      = rs.map (fun r => DictWriter.rowOf ⟨F⟩ r) := by
  induction rs generalizing fns with
  | nil => rfl
  | cons r rs ih =>
    have hE2 : 2 ≤ (extendK (some "copy") fns r.keys).length :=
      extendK_two_le _ fns r.keys hlen
    have hrow : rowLines (some "copy") fns (r :: rs)
        = DictWriter.rowOf ⟨extendK (some "copy") fns r.keys⟩ r
          :: rowLines (some "copy") (extendK (some "copy") fns r.keys) rs :=
      rfl
    have hF' : F = schemaRun (some "copy")
        (extendK (some "copy") fns r.keys) rs := hF
    have hne : ¬(DictWriter.rowOf
        ⟨extendK (some "copy") fns r.keys⟩ r).isEmpty = true := by
      simp only [List.isEmpty_iff]
      exact rowOf_ne_nil_of_two _ r hE2
    have hsplit := rowOf_cells_split (extendK (some "copy") fns r.keys) r
      (by intro hc; rw [hc] at hE2; simp at hE2) (hcl r (by simp)).1
    obtain ⟨t, htd⟩ := schemaRun_extends (some "copy")
      (extendK (some "copy") fns r.keys) rs
    have hpad := reEmit_pad F (extendK (some "copy") fns r.keys) t r
      (by rw [hF', htd]) hndF
      (extendK_keys_sub (some "copy") fns r.keys (by decide))
    have step : (DictWriter.rowOf ⟨extendK (some "copy") fns r.keys⟩ r
          :: rowLines (some "copy")
              (extendK (some "copy") fns r.keys) rs).filterMap
          (fun l2 => if l2.isEmpty then none
            else some (reEmitRow F (splitOnElem ',' l2)))
        = reEmitRow F (splitOnElem ','
            (DictWriter.rowOf ⟨extendK (some "copy") fns r.keys⟩ r))
          :: (rowLines (some "copy")
              (extendK (some "copy") fns r.keys) rs).filterMap
            (fun l2 => if l2.isEmpty then none
              else some (reEmitRow F (splitOnElem ',' l2))) := by
      rw [List.filterMap_cons, if_neg hne]
    rw [hrow, List.map_cons, step, hsplit, hpad,
      ih (extendK (some "copy") fns r.keys) hE2 hF'
        (fun r' hr' => hcl r' (List.mem_cons_of_mem r hr'))]

theorem close_copy_committed (o : CsvOutput) (fns : List String)
    (h1 : o.inconsistency_handling = some "copy")
    (h2 : o.writer = some ⟨fns⟩) :
    o.close = ({ o with log_file :=
        ⟨unlinesLF (rewriteLines fns (parseLines o.log_file.content)),
         o.log_file.pos, true⟩ }, none) := by
  simp [CsvOutput.close, h1, h2]

theorem no_nl_rowLines (impl : Option String) (fns : List String)
    (rs : List Record) (hcl : ∀ r ∈ rs, Record.clean r = true) :
    ∀ l ∈ rowLines impl fns rs, '\n' ∉ l := by
  induction rs generalizing fns with
  | nil => simp [rowLines]
  | cons r rs ih =>
    intro l hl
    rcases List.mem_cons.mp hl with h | h
    · exact h ▸ no_nl_rowOf _ r (hcl r (by simp))
    · exact ih (extendK impl fns r.keys)
        (fun r' hr' => hcl r' (List.mem_cons_of_mem r hr')) l h

/-- Counterexample to claim C1 as stated: in copy-on-close mode with the
one-field schema `a`, a second record holding the empty string for `a` is
written as a blank line; the close-time read-back skips blank lines (as
csv.DictReader does), so that data row is silently dropped — the closed
file is `a\n1\n`, two lines instead of the claimed header plus two rows. -/
theorem c1_counterexample :
    ((((CsvOutput.init (some "copy") 140).run
        [⟨[("a","1")]⟩, ⟨[("a","")]⟩]).close).1.log_file.content
      = "a\n1\n".data) ∧
    ¬(parseLines ((((CsvOutput.init (some "copy") 140).run
        [⟨[("a","1")]⟩, ⟨[("a","")]⟩]).close).1.log_file.content)).length
      = [(⟨[("a","1")]⟩ : Record), ⟨[("a","")]⟩].length + 1 := by decide

/-- Claim C1 (amended): in copy-on-close mode, provided the schema
committed by the first record has at least two fields (so no data row is
ever an entirely blank line — a one-column row holding the empty string
would be dropped by the close-time read-back), closing after any write
sequence yields a file of exactly one header line listing the final,
fully-extended field list followed by the original data rows in order,
each re-emitted with exactly one value per final field, using the empty
string for every final-schema field that row lacked. -/
theorem c1_copy_close_rectangular (L : Nat) (r0 : Record)
    (rs : List Record)
    (hlen : 2 ≤ r0.keys.length)
    (hcl : ∀ r ∈ r0 :: rs, Record.clean r = true ∧ r.keys.Nodup) :
    (((CsvOutput.init (some "copy") L).run (r0 :: rs)).close).2 = none ∧
    (((CsvOutput.init (some "copy") L).run
        (r0 :: rs)).close).1.log_file.content
      = unlinesLF (strJoinComma (schemaRun (some "copy") r0.keys (r0 :: rs))
          :: (r0 :: rs).map (fun r =>
              DictWriter.rowOf
                ⟨schemaRun (some "copy") r0.keys (r0 :: rs)⟩ r)) := by
  have h0 : r0.keys ≠ [] := by
    intro hc
    rw [hc] at hlen
    simp at hlen
  have hkc : ∀ k ∈ r0.keys, cleanCell k = true :=
    Record.clean_keys r0 (hcl r0 (by simp)).1
  have hF0 : schemaRun (some "copy") r0.keys (r0 :: rs)
      = schemaRun (some "copy") r0.keys rs := by
    show schemaRun (some "copy")
        (extendK (some "copy") r0.keys r0.keys) rs = _
    rw [extendK_sameSet _ _ _ (sameSet_self _)]
  rw [run_cons, hF0]
  obtain ⟨f1, f2, f3, f4, f5, -⟩ :=
    first_record_nonfixed (CsvOutput.init (some "copy") L) r0 rfl
      (by simp [h0]) (by simp [CsvOutput.init]) rfl
  obtain ⟨c1, c2, -, c4, -, -⟩ :=
    run_nonfixed_content
      ((CsvOutput.init (some "copy") L).record_tabular r0).1
      r0.keys rs f2 f3 (by rw [f4]; simp [CsvOutput.init]) f5
  rw [f4] at c1 c2 c4
  have hinit : (CsvOutput.init (some "copy") L).inconsistency_handling
      = some "copy" := rfl
  rw [hinit] at c1 c2 c4
  have hcontent :
      ((((CsvOutput.init (some "copy") L).record_tabular
          r0).1).run rs).log_file.content
        = unlinesCRLF (strJoinComma r0.keys
            :: rowLines (some "copy") r0.keys (r0 :: rs)) := by
    rw [c1, f1]
    have hi : (CsvOutput.init (some "copy") L).log_file.content = [] := rfl
    rw [hi, List.nil_append, ← unlinesCRLF_append]
    have hexp : rowLines (some "copy") r0.keys (r0 :: rs)
        = DictWriter.rowOf ⟨extendK (some "copy") r0.keys r0.keys⟩ r0
          :: rowLines (some "copy")
              (extendK (some "copy") r0.keys r0.keys) rs := rfl
    rw [hexp, extendK_sameSet _ _ _ (sameSet_self _)]
    rfl
  have hclose := close_copy_committed
    ((((CsvOutput.init (some "copy") L).record_tabular r0).1).run rs)
    (schemaRun (some "copy") r0.keys rs) c4 c2
  rw [hclose]
  refine ⟨rfl, ?_⟩
  show unlinesLF (rewriteLines (schemaRun (some "copy") r0.keys rs)
      (parseLines ((((CsvOutput.init (some "copy") L).record_tabular
          r0).1).run rs).log_file.content)) = _
  have hparse : parseLines
      ((((CsvOutput.init (some "copy") L).record_tabular
          r0).1).run rs).log_file.content
      = strJoinComma r0.keys
        :: rowLines (some "copy") r0.keys (r0 :: rs) := by
    rw [hcontent]
    apply parseLines_unlinesCRLF
    intro l hl
    rcases List.mem_cons.mp hl with h | h
    · exact h ▸ no_nl_strJoinComma r0.keys hkc
    · exact no_nl_rowLines (some "copy") r0.keys (r0 :: rs)
        (fun r' hr' => (hcl r' hr').1) l h
  rw [hparse]
  have hhne : ¬(strJoinComma r0.keys).isEmpty = true := by
    rw [List.isEmpty_iff]
    exact strJoinComma_ne_nil_of_two _ hlen
  have hrw : rewriteLines (schemaRun (some "copy") r0.keys rs)
      (strJoinComma r0.keys :: rowLines (some "copy") r0.keys (r0 :: rs))
      = strJoinComma (schemaRun (some "copy") r0.keys rs)
        :: (rowLines (some "copy") r0.keys (r0 :: rs)).filterMap
          (fun l2 => if l2.isEmpty then none
            else some (reEmitRow (schemaRun (some "copy") r0.keys rs)
              (splitOnElem ',' l2))) := by
    simp only [rewriteLines]
    rw [if_neg hhne]
  have hndF : (schemaRun (some "copy") r0.keys rs).Nodup :=
    schemaRun_nodup (some "copy") r0.keys rs (hcl r0 (by simp)).2
      (fun r' hr' => (hcl r' (List.mem_cons_of_mem r0 hr')).2)
  rw [hrw, close_rows_general (schemaRun (some "copy") r0.keys rs) r0.keys
    (r0 :: rs) hlen hndF hF0.symm hcl]

/-- Witness for C1 (amended): a copy-mode writer, first record with schema
`a, b`, second record introducing `c` while dropping `b`. -/
theorem c1_copy_close_rectangular_witness :
    (2 ≤ (⟨[("a","1"),("b","2")]⟩ : Record).keys.length
    ∧ (∀ r ∈ [(⟨[("a","1"),("b","2")]⟩ : Record), ⟨[("a","3"),("c","4")]⟩],
        Record.clean r = true ∧ r.keys.Nodup))
    ∧ ((((CsvOutput.init (some "copy") 140).run
          [⟨[("a","1"),("b","2")]⟩, ⟨[("a","3"),("c","4")]⟩]).close).2 = none
      ∧ (((CsvOutput.init (some "copy") 140).run
          [⟨[("a","1"),("b","2")]⟩,
           ⟨[("a","3"),("c","4")]⟩]).close).1.log_file.content
        = unlinesLF (strJoinComma (schemaRun (some "copy")
              (⟨[("a","1"),("b","2")]⟩ : Record).keys
              [(⟨[("a","1"),("b","2")]⟩ : Record), ⟨[("a","3"),("c","4")]⟩])
            :: [(⟨[("a","1"),("b","2")]⟩ : Record),
                ⟨[("a","3"),("c","4")]⟩].map
              (fun r => DictWriter.rowOf
                ⟨schemaRun (some "copy")
                  (⟨[("a","1"),("b","2")]⟩ : Record).keys
                  [(⟨[("a","1"),("b","2")]⟩ : Record),
                   ⟨[("a","3"),("c","4")]⟩]⟩ r))) :=
  ⟨⟨by decide, by decide⟩,
    c1_copy_close_rectangular 140 ⟨[("a","1"),("b","2")]⟩
      [⟨[("a","3"),("c","4")]⟩] (by decide) (by decide)⟩

end Dowel
